import Mathlib

/-!
Verification of `src/Scripts/Package.py` (RetroFE packaging script).

The script is shallowly embedded over a model of the filesystem: a filesystem
is a tree `Node` (regular files with string contents, directories with a list
of named children), and a path is a list of components (`os.path.join` is list
append; the path separator in printed traces is rendered as "/").

Python library calls are modelled by their documented POSIX semantics:
`os.makedirs` walks the missing ancestors creating each one with `mkdir`,
`os.mkdir` fails with errno EEXIST when the path already exists (as any node
kind), ENOENT when the parent is missing, ENOTDIR when the parent is a
non-directory, EACCES when creation is denied by permissions;
`shutil.copyfile` opens the source (ENOENT if missing, EISDIR if a directory)
then the destination (EISDIR if an existing directory, ENOENT if the parent
directory is missing, ENOTDIR if the parent is a regular file);
`shutil.copy` first redirects into `dst/basename(src)` when `dst` is a
directory; `shutil.rmtree` removes a subtree; `shutil.copytree` copies a
directory node to a fresh destination.  Permission denials are modelled by a
`denied` set of paths on which directory creation fails with EACCES.
Exceptions are modelled with `Except`; an uncaught exception is an `.error`
result (the Python process then dies with a non-zero status), a normal return
is `.ok` (the process exits with status zero).  Printed output is modelled as
a trace: each operation returns the list of lines it prints.
-/

set_option maxRecDepth 8000

namespace Package

/-- A filesystem path, as its list of components. -/
abbrev Path := List String

/-- A filesystem tree: regular files (with contents) and directories
(with an association list of named children). -/
inductive Node where
  | file (contents : String)
  | dir (children : List (String × Node))
deriving Repr

/-- Render a path the way `os.path.join` produces it (separator "/"). -/
def pathStr (p : Path) : String := String.intercalate "/" p

/-- `pathLe p q` holds when `p` is an initial segment of `q`
(the path `q` is `p` itself or lies inside the subtree rooted at `p`). -/
def pathLe : Path → Path → Bool
  | [], _ => true
  | _ :: _, [] => false
  | a :: p, b :: q => a = b && pathLe p q

/-- Look up the child of the given name in a directory's child list
(first binding wins). -/
def findChild : List (String × Node) → String → Option Node
  | [], _ => none
  | (a, m) :: cs, c => if a = c then some m else findChild cs c

/-- Replace the first binding of the given name (or append a new one). -/
def setChild : List (String × Node) → String → Node → List (String × Node)
  | [], c, m => [(c, m)]
  | (a, x) :: cs, c, m => if a = c then (a, m) :: cs else (a, x) :: setChild cs c m

/-- Remove the first binding of the given name. -/
def eraseChild : List (String × Node) → String → List (String × Node)
  | [], _ => []
  | (a, x) :: cs, c => if a = c then cs else (a, x) :: eraseChild cs c

/-- Resolve a path inside a tree. -/
def Node.lookup : Node → Path → Option Node
  | n, [] => some n
  | .file _, _ :: _ => none
  | .dir cs, c :: p =>
      match findChild cs c with
      | some m => m.lookup p
      | none => none

/-- `os.path.exists`. -/
def pathExists (n : Node) (p : Path) : Bool := (n.lookup p).isSome

/-- `os.path.isdir`. -/
def isdir (n : Node) (p : Path) : Bool :=
  match n.lookup p with
  | some (.dir _) => true
  | _ => false

/-- `os.listdir` (on a directory node; callers guard with `isdir` /
model the exception separately). -/
def listdir (n : Node) (p : Path) : List String :=
  match n.lookup p with
  | some (.dir cs) => cs.map Prod.fst
  | _ => []

/-- The child of the given name, defaulting to an empty directory. -/
def childD (cs : List (String × Node)) (c : String) : Node :=
  (findChild cs c).getD (.dir [])

/-- Place a node at a path, replacing whatever is there.  Missing
intermediate components become fresh directories; an intermediate regular
file makes the write a no-op (the operations below only call `update` after
checking the parent, so those branches are unreachable there). -/
def Node.update : Node → Path → Node → Node
  | _, [], m => m
  | .file s, _ :: _, _ => .file s
  | .dir cs, c :: p, m => .dir (setChild cs c ((childD cs c).update p m))

/-- Remove the subtree at a path (`shutil.rmtree`; callers guard with
`os.path.exists`).  Removing the root is modelled as a no-op (never reached:
all removed paths in the script are non-empty). -/
def removeNode : Node → Path → Node
  | n, [] => n
  | .file s, _ :: _ => .file s
  | .dir cs, [c] => .dir (eraseChild cs c)
  | .dir cs, c :: p₁ :: p₂ =>
      .dir (setChild cs c (removeNode (childD cs c) (p₁ :: p₂)))

/-- Errno values raised by the modelled library calls, carrying the offending
path (Python's `OSError.filename`).  `nofuel` is an artificial outcome of the
fuel-bounded recursive copier, never produced by any modelled library call. -/
inductive Errno where
  | EEXIST (p : Path)
  | ENOENT (p : Path)
  | ENOTDIR (p : Path)
  | EACCES (p : Path)
  | EISDIR (p : Path)
  | ESAME (p : Path)
  | nofuel
deriving Repr

/-- The errno-code comparison `exception.errno == errno.EEXIST` of the
script (it compares the numeric code only, not the offending path). -/
def Errno.isEEXIST : Errno → Bool
  | .EEXIST _ => true
  | _ => false

/-- Result of a step of the script: the lines it printed, and either the
filesystem after it or the uncaught exception that terminated it. -/
structure Out where
  trace : List String
  res : Except Errno Node

/-- Sequencing of script steps: later steps run only when the earlier ones
did not raise; printed lines accumulate. -/
def Out.bind (o : Out) (f : Node → Out) : Out :=
  match o.res with
  | .ok n => ⟨o.trace ++ (f n).trace, (f n).res⟩
  | .error e => ⟨o.trace, .error e⟩

/-- `os.mkdir`: create a single directory.  Fails with EEXIST when the path
already exists (as any node kind), ENOENT when the parent is missing,
ENOTDIR when the parent is a regular file, EACCES when the path is in the
denied set. -/
def mkdir (denied : List Path) (root : Node) (p : Path) : Except Errno Node :=
  if pathExists root p then .error (.EEXIST p)
  else
    match root.lookup p.dropLast with
    | some (.dir _) =>
        if p ∈ denied then .error (.EACCES p) else .ok (root.update p (.dir []))
    | some (.file _) => .error (.ENOTDIR p)
    | none => .error (.ENOENT p)

/-- Worker for `os.makedirs`: create each missing initial segment of the
path in turn (the recursion of Python's `makedirs` over the head, with
`FileExistsError` from the recursive calls swallowed), then `mkdir` the full
path, whose error — EEXIST included — propagates. -/
def makedirsGo (denied : List Path) : Node → Path → List String → Except Errno Node
  | root, pre, [] => mkdir denied root pre
  | root, pre, [c] => mkdir denied root (pre ++ [c])
  | root, pre, c :: c₁ :: rest =>
      if pathExists root (pre ++ [c]) then
        makedirsGo denied root (pre ++ [c]) (c₁ :: rest)
      else
        match mkdir denied root (pre ++ [c]) with
        | .ok r => makedirsGo denied r (pre ++ [c]) (c₁ :: rest)
        | .error e =>
            if e.isEEXIST then makedirsGo denied root (pre ++ [c]) (c₁ :: rest)
            else .error e

/-- `os.makedirs` (default `exist_ok=False`). -/
def makedirs (denied : List Path) (root : Node) (p : Path) : Except Errno Node :=
  makedirsGo denied root [] p

/-- `mkdir_p` of the script (Package.py lines 19-26): print the CREATE trace
line, call `os.makedirs`, and swallow exactly the errno EEXIST; every other
errno is re-raised. -/
def mkdir_p (denied : List Path) (root : Node) (p : Path) : Out :=
  ⟨["CREATE: " ++ pathStr p],
   match makedirs denied root p with
   | .ok r => .ok r
   | .error e => if e.isEEXIST then .ok root else .error e⟩

/-- `shutil.copyfile`: raises SameFileError when source and destination are
the same existing file; opens the source (ENOENT if missing, EISDIR if a
directory), then the destination for writing (EISDIR if an existing
directory, ENOENT if the parent is missing, ENOTDIR if the parent is a
regular file); on success the destination holds the source's bytes. -/
def copyfile (root : Node) (src dst : Path) : Except Errno Node :=
  if src = dst && pathExists root src then .error (.ESAME dst)
  else
    match root.lookup src with
    | some (.file bs) =>
        match root.lookup dst with
        | some (.dir _) => .error (.EISDIR dst)
        | _ =>
            match root.lookup dst.dropLast with
            | some (.dir _) => .ok (root.update dst (.file bs))
            | some (.file _) => .error (.ENOTDIR dst)
            | none => .error (.ENOENT dst)
    | some (.dir _) => .error (.EISDIR src)
    | none => .error (.ENOENT src)

/-- The `for name in os.listdir(src)` loop of `copytree`: run the recursive
copy for the children in order, stopping at the first uncaught exception. -/
def copyChildren (step : Node → String → Out) : List String → Node → Out
  | [], root => ⟨[], .ok root⟩
  | n :: ns, root => (step root n).bind (fun r => copyChildren step ns r)

/-- `copytree` of the script (Package.py lines 8-17): if the source is a
directory, ensure the destination directory exists (via `mkdir_p`, printing
its CREATE line) and recurse into every listed entry of the source;
otherwise print the COPY line and `shutil.copyfile` the source to the
destination.  The recursion is bounded by fuel; exhaustion yields the
artificial `Errno.nofuel`, which no theorem below treats as a normal
outcome. -/
def copytree (denied : List Path) : Nat → Node → Path → Path → Out
  | 0, _, _, _ => ⟨[], .error .nofuel⟩
  | fuel + 1, root, src, dst =>
      if isdir root src then
        (if pathExists root dst then ⟨[], .ok root⟩ else mkdir_p denied root dst).bind
          (fun r1 =>
            copyChildren
              (fun r n => copytree denied fuel r (src ++ [n]) (dst ++ [n]))
              (listdir r1 src) r1)
      else
        ⟨["COPY: " ++ pathStr dst],
         match copyfile root src dst with
         | .ok r => .ok r
         | .error e => .error e⟩

/-- `shutil.copy`: when the destination is a directory, copy into
`dst/basename(src)`; then `shutil.copyfile`. -/
def shutilCopy (root : Node) (src dst : Path) : Except Errno Node :=
  let dst' := if isdir root dst then dst ++ [src.getLastD ""] else dst
  copyfile root src dst'

/-- `shutil.copytree` (used for the mac `RetroFE.app` bundle, with
`symlinks=True, ignore_dangling_symlinks=True`; the model has no symlinks, so
the bundle subtree is copied as-is): the source must be a directory, the
destination must not exist, the destination's parent must be a directory. -/
def shutilCopytreeNode (root : Node) (src dst : Path) : Except Errno Node :=
  match root.lookup src with
  | some (.dir cs) =>
      if pathExists root dst then .error (.EEXIST dst)
      else
        match root.lookup dst.dropLast with
        | some (.dir _) => .ok (root.update dst (.dir cs))
        | some (.file _) => .error (.ENOTDIR dst)
        | none => .error (.ENOENT dst)
  | some (.file _) => .error (.ENOTDIR src)
  | none => .error (.ENOENT src)

/-- The validated `--os` values (Package.py line 34, `choices=[...]`). -/
inductive OSChoice where
  | windows
  | linux
  | mac
deriving Repr, DecidableEq

/-- The string of a validated `--os` value, as used in the output path. -/
def osStr : OSChoice → String
  | .windows => "windows"
  | .linux => "linux"
  | .mac => "mac"

/-- The parsed arguments (the `args` namespace object).  `--build` is a free
string (the parser declares no `choices` for it); `--clean` is a
`store_true` flag. -/
structure Args where
  osArg : OSChoice
  build : String
  clean : Bool
deriving Repr, DecidableEq

/-- The argument parser (Package.py lines 33-37): `--os` is validated
against three choices and required; `--build` accepts any string (default
"full"); `--clean` is a boolean flag.  `none` is the usage-error exit. -/
def parseArgs (osA buildA : String) (cleanFlag : Bool) : Option Args :=
  if osA = "windows" then some ⟨.windows, buildA, cleanFlag⟩
  else if osA = "linux" then some ⟨.linux, buildA, cleanFlag⟩
  else if osA = "mac" then some ⟨.mac, buildA, cleanFlag⟩
  else none

/-- `hasattr(args, 'clean')` (Package.py line 60).  An argparse namespace
built with `add_argument('--clean', action='store_true')` always carries the
`clean` attribute (set to True or False), so this test is true for every
parse result, whatever the flag's value. -/
def hasattrClean (_ : Args) : Bool := true

/-- `Package/Environment/Common` relative to the base path (line 43). -/
def commonPath (base : Path) : Path := base ++ ["Package", "Environment", "Common"]

/-- The OS-specific asset directory (lines 46-53). -/
def osAssetsPath (base : Path) : OSChoice → Path
  | .windows => base ++ ["Package", "Environment", "Windows"]
  | .linux => base ++ ["Package", "Environment", "Linux"]
  | .mac => base ++ ["Package", "Environment", "MacOS"]

/-- The output directory `Artifacts/<os>/RetroFE` (line 58). -/
def outputPath (base : Path) (o : OSChoice) : Path :=
  base ++ ["Artifacts", osStr o, "RetroFE"]

/-- The clean step (lines 60-61): `shutil.rmtree(output_path)` whenever the
output path exists and `hasattr(args, 'clean')` holds. -/
def cleanStep (args : Args) (base : Path) (root : Node) : Node :=
  if pathExists root (outputPath base args.osArg) && hasattrClean args then
    removeNode root (outputPath base args.osArg)
  else root

/-- Output-directory creation (lines 64-65): a bare `os.makedirs` (no trace
line, errors uncaught) when the build is not "none" and the output path does
not exist. -/
def ensureOutput (denied : List Path) (args : Args) (base : Path) (root : Node) :
    Except Errno Node :=
  if args.build ≠ "none" && !(pathExists root (outputPath base args.osArg)) then
    makedirs denied root (outputPath base args.osArg)
  else .ok root

/-- The five per-collection subdirectories of the full profile
(lines 80-86); "medium_artwork/logo" and "medium_artwork/video" are joined
onto the collection base as two-component relative paths. -/
def dirsToCreate : List Path :=
  [["roms"], ["medium_artwork"], ["medium_artwork", "logo"],
   ["medium_artwork", "video"], ["system_artwork"]]

/-- `collection.startswith('_')` of the script (line 76): whether the
collection name begins with an underscore, computed on the string's
character list (`String.startsWith` itself does not reduce in the
kernel). -/
def startsWithUnderscore (s : String) : Bool :=
  match s.data with
  | [] => false
  | c :: _ => c = '_'

/-- The inner loop of the scaffolding (lines 88-90): `mkdir_p` each of the
five subdirectories under the collection base. -/
def scaffoldOne (denied : List Path) (collectionBase : Path) : List Path → Node → Out
  | [], root => ⟨[], .ok root⟩
  | sub :: subs, root =>
      (mkdir_p denied root (collectionBase ++ sub)).bind
        (scaffoldOne denied collectionBase subs)

/-- The loop over discovered collections (lines 74-90): each collection
whose name does not start with "_" gets the five subdirectories. -/
def scaffoldLoop (denied : List Path) (out : Path) : List String → Node → Out
  | [], root => ⟨[], .ok root⟩
  | d :: ds, root =>
      (if !(startsWithUnderscore d) then
          scaffoldOne denied (out ++ ["collections", d]) dirsToCreate root
       else ⟨[], .ok root⟩).bind
        (scaffoldLoop denied out ds)

/-- Collection scaffolding of the full profile (lines 74-90): list the
entries of `output/collections` (`os.listdir` raises FileNotFoundError on a
missing path and NotADirectoryError on a regular file), keep those that are
directories, and scaffold each one whose name does not start with "_". -/
def scaffoldCollections (denied : List Path) (out : Path) (root : Node) : Out :=
  let cpath := out ++ ["collections"]
  match root.lookup cpath with
  | none => ⟨[], .error (.ENOENT cpath)⟩
  | some (.file _) => ⟨[], .error (.ENOTDIR cpath)⟩
  | some (.dir cs) =>
      let dirs := (cs.map Prod.fst).filter (fun d => isdir root (cpath ++ [d]))
      scaffoldLoop denied out dirs root

/-- The `full` branch (lines 67-90): copy the common assets onto the output,
copy the OS assets onto the output, ensure `meta/mamelist`, then scaffold
the collections. -/
def fullBranch (denied : List Path) (base : Path) (o : OSChoice) (fuel : Nat)
    (root : Node) : Out :=
  let out := outputPath base o
  (copytree denied fuel root (commonPath base) out).bind (fun r1 =>
    (copytree denied fuel r1 (osAssetsPath base o) out).bind (fun r2 =>
      (mkdir_p denied r2 (out ++ ["meta", "mamelist"])).bind (fun r3 =>
        scaffoldCollections denied out r3)))

/-- The `layout` branch (lines 92-104): bare `os.makedirs` of
`output/layouts` when absent, then copy the common and the OS `layouts`
subtrees when they exist (each copy simply skipped when its source is
absent). -/
def layoutBranch (denied : List Path) (base : Path) (o : OSChoice) (fuel : Nat)
    (root : Node) : Out :=
  let ldest := outputPath base o ++ ["layouts"]
  let lcommon := commonPath base ++ ["layouts"]
  let los := osAssetsPath base o ++ ["layouts"]
  (if !(pathExists root ldest) then (⟨[], makedirs denied root ldest⟩ : Out)
   else ⟨[], .ok root⟩).bind (fun r1 =>
    (if pathExists r1 lcommon then copytree denied fuel r1 lcommon ldest
     else ⟨[], .ok r1⟩).bind (fun r2 =>
      if pathExists r2 los then copytree denied fuel r2 los ldest
      else ⟨[], .ok r2⟩))

/-- The builds for which the executable is placed (lines 110, 124, 129). -/
def buildWantsExe (build : String) : Bool :=
  build = "full" || build = "core" || build = "engine"

/-- Executable placement (lines 109-142).  windows: create `output/retrofe`
when absent, `shutil.copy` the fixed-path `retrofe.exe` into it.  linux:
`shutil.copy` the fixed-path `retrofe` into the output directory.  mac:
prefer the `RetroFE.app` bundle (removing a pre-existing destination bundle,
then `shutil.copytree`); otherwise a bare `retrofe`; when neither exists,
print the error line and return normally. -/
def placeExe (denied : List Path) (base : Path) (o : OSChoice) (build : String)
    (root : Node) : Out :=
  let out := outputPath base o
  match o with
  | .windows =>
      if buildWantsExe build then
        let srcExe := base ++ ["RetroFE", "Build", "Release", "retrofe.exe"]
        let corePath := out ++ ["retrofe"]
        (if !(pathExists root corePath) then
            (⟨[], makedirs denied root corePath⟩ : Out)
         else ⟨[], .ok root⟩).bind (fun r1 =>
          ⟨[], shutilCopy r1 srcExe corePath⟩)
      else ⟨[], .ok root⟩
  | .linux =>
      if buildWantsExe build then
        ⟨[], shutilCopy root (base ++ ["RetroFE", "Build", "retrofe"]) out⟩
      else ⟨[], .ok root⟩
  | .mac =>
      if buildWantsExe build then
        let releaseDir := base ++ ["RetroFE", "Build", "Release"]
        let srcApp := releaseDir ++ ["RetroFE.app"]
        let srcExe := releaseDir ++ ["retrofe"]
        let destApp := out ++ ["RetroFE.app"]
        if pathExists root srcApp then
          let r1 := if pathExists root destApp then removeNode root destApp else root
          ⟨[], shutilCopytreeNode r1 srcApp destApp⟩
        else if pathExists root srcExe then
          ⟨[], shutilCopy root srcExe out⟩
        else
          ⟨["Error: Neither RetroFE.app nor retrofe binary found in Release folder."],
           .ok root⟩
      else ⟨[], .ok root⟩

/-- The whole script after argument parsing (lines 42-142): clean step,
output-directory creation, profile branch, executable placement. -/
def runPackage (denied : List Path) (base : Path) (o : OSChoice) (build : String)
    (clean : Bool) (fuel : Nat) (root : Node) : Out :=
  let args : Args := ⟨o, build, clean⟩
  let root1 := cleanStep args base root
  (⟨[], ensureOutput denied args base root1⟩ : Out).bind (fun r2 =>
    (if build = "full" then fullBranch denied base o fuel r2
     else if build = "layout" then layoutBranch denied base o fuel r2
     else ⟨[], .ok r2⟩).bind (fun r3 =>
      placeExe denied base o build r3))

/-- A small concrete tree for exercising the recursive copier: a source
directory `s` with a file and a nested directory, and an empty target
directory `t`. -/
def sampleTree : Node :=
  .dir [("s", .dir [("f", .file "x"), ("d", .dir [("g", .file "y")])]),
        ("t", .dir [])]

/-- The tree `sampleTree` becomes after `copytree s t/u`. -/
def sampleTreeCopied : Node :=
  .dir [("s", .dir [("f", .file "x"), ("d", .dir [("g", .file "y")])]),
        ("t", .dir [("u", .dir [("f", .file "x"),
          ("d", .dir [("g", .file "y")])])])]

/-- A concrete output tree whose `collections` directory holds a normal
collection, an underscore-named collection and a stray regular file. -/
def collectionsBefore : Node :=
  .dir [("collections", .dir [("mario", .dir []), ("_hidden", .dir []),
    ("notes.txt", .file "n")])]

/-- The tree `collectionsBefore` becomes after the full-profile collection
scaffolding. -/
def collectionsAfter : Node :=
  .dir [("collections", .dir [("mario", .dir
    [("roms", .dir []),
     ("medium_artwork", .dir [("logo", .dir []), ("video", .dir [])]),
     ("system_artwork", .dir [])]),
    ("_hidden", .dir []), ("notes.txt", .file "n")])]

/-! ### Path lemmas -/

theorem pathLe_iff {p q : Path} : pathLe p q = true ↔ ∃ r, q = p ++ r := by
  induction p generalizing q with
  | nil => simp [pathLe]
  | cons a p ih =>
    cases q with
    | nil => simp [pathLe]
    | cons b q =>
      simp only [pathLe, Bool.and_eq_true, decide_eq_true_eq, ih]
      constructor
      · rintro ⟨rfl, r, rfl⟩; exact ⟨r, rfl⟩
      · rintro ⟨r, hr⟩
        obtain ⟨rfl, rfl⟩ := by simpa using hr
        exact ⟨rfl, r, rfl⟩

theorem pathLe_refl (p : Path) : pathLe p p = true :=
  pathLe_iff.mpr ⟨[], by simp⟩

theorem pathLe_append (p r : Path) : pathLe p (p ++ r) = true :=
  pathLe_iff.mpr ⟨r, rfl⟩

theorem pathLe_trans {p q r : Path} (h₁ : pathLe p q = true)
    (h₂ : pathLe q r = true) : pathLe p r = true := by
  obtain ⟨u, rfl⟩ := pathLe_iff.mp h₁
  obtain ⟨v, rfl⟩ := pathLe_iff.mp h₂
  exact pathLe_iff.mpr ⟨u ++ v, by simp⟩

theorem pathLe_cancel {p a b : Path} :
    pathLe (p ++ a) (p ++ b) = true ↔ pathLe a b = true := by
  constructor
  · intro h
    obtain ⟨r, hr⟩ := pathLe_iff.mp h
    exact pathLe_iff.mpr ⟨r, by simpa using hr⟩
  · intro h
    obtain ⟨r, rfl⟩ := pathLe_iff.mp h
    exact pathLe_iff.mpr ⟨r, by simp⟩

theorem pathLe_comparable {a b c : Path} (ha : pathLe a c = true)
    (hb : pathLe b c = true) : pathLe a b = true ∨ pathLe b a = true := by
  induction c generalizing a b with
  | nil =>
    obtain ⟨u, hu⟩ := pathLe_iff.mp ha
    obtain ⟨v, hv⟩ := pathLe_iff.mp hb
    simp only [List.nil_eq, List.append_eq_nil] at hu hv
    simp [hu.1, hv.1, pathLe]
  | cons z c ih =>
    cases a with
    | nil => exact Or.inl (by simp [pathLe])
    | cons x a =>
      cases b with
      | nil => exact Or.inr (by simp [pathLe])
      | cons y b =>
        simp only [pathLe, Bool.and_eq_true, decide_eq_true_eq] at ha hb
        rcases ih ha.2 hb.2 with h | h
        · exact Or.inl (by simp [pathLe, ha.1, hb.1, h])
        · exact Or.inr (by simp [pathLe, ha.1, hb.1, h])

theorem pathLe_cons_ne {n m : String} {p r : Path} (h : n ≠ m) :
    pathLe (p ++ [n]) (p ++ m :: r) = false := by
  by_contra hc
  have : pathLe [n] (m :: r) = true := by
    have := pathLe_cancel.mp (by simpa using Bool.of_not_eq_false hc)
    exact this
  obtain ⟨u, hu⟩ := pathLe_iff.mp this
  simp only [List.singleton_append, List.cons.injEq] at hu
  exact h hu.1.symm

/-! ### Lookup lemmas -/

theorem Node.lookup_append (n : Node) (p q : Path) :
    n.lookup (p ++ q) = (n.lookup p).bind (fun m => m.lookup q) := by
  induction p generalizing n with
  | nil => simp [Node.lookup]
  | cons c p ih =>
    cases n with
    | file s => simp [Node.lookup]
    | dir cs =>
      simp only [List.cons_append, Node.lookup]
      cases findChild cs c with
      | none => simp
      | some m => simpa using ih m

theorem lookup_none_append {n : Node} {p : Path} (h : n.lookup p = none)
    (q : Path) : n.lookup (p ++ q) = none := by
  simp [Node.lookup_append, h]

theorem lookup_isSome_of_append {n : Node} {p q : Path} {v : Node}
    (h : n.lookup (p ++ q) = some v) : ∃ m, n.lookup p = some m := by
  rw [Node.lookup_append] at h
  cases hm : n.lookup p with
  | none => rw [hm] at h; simp at h
  | some m => exact ⟨m, rfl⟩

/-- Every strict initial segment of a resolvable non-trivial path resolves
to a directory. -/
theorem lookup_dir_of_append {n : Node} {p : Path} {c : String} {q : Path}
    {v : Node} (h : n.lookup (p ++ c :: q) = some v) :
    ∃ cs, n.lookup p = some (.dir cs) := by
  rw [Node.lookup_append] at h
  cases hm : n.lookup p with
  | none => rw [hm] at h; simp at h
  | some m =>
    rw [hm] at h
    cases m with
    | file s => simp [Node.lookup] at h
    | dir cs => exact ⟨cs, rfl⟩

theorem lookup_exists_of_pathLe {n : Node} {p q : Path} {v : Node}
    (hle : pathLe p q = true) (h : n.lookup q = some v) :
    ∃ m, n.lookup p = some m := by
  obtain ⟨r, rfl⟩ := pathLe_iff.mp hle
  exact lookup_isSome_of_append h

theorem lookup_none_of_pathLe {n : Node} {p q : Path}
    (hle : pathLe p q = true) (h : n.lookup p = none) : n.lookup q = none := by
  obtain ⟨r, rfl⟩ := pathLe_iff.mp hle
  exact lookup_none_append h r

/-- Below an empty directory every non-trivial path is unresolvable. -/
theorem lookup_below_empty {n : Node} {p q : Path}
    (h : n.lookup p = some (.dir [])) (hq : q ≠ []) :
    n.lookup (p ++ q) = none := by
  rw [Node.lookup_append, h]
  cases q with
  | nil => exact absurd rfl hq
  | cons c q => simp [Node.lookup, findChild]

/-! ### Child-list lemmas -/

theorem findChild_setChild_self (cs : List (String × Node)) (c : String)
    (m : Node) : findChild (setChild cs c m) c = some m := by
  induction cs with
  | nil => simp [setChild, findChild]
  | cons e cs ih =>
    obtain ⟨a, x⟩ := e
    by_cases h : a = c
    · simp [setChild, findChild, h]
    · simp [setChild, findChild, h, ih]

theorem findChild_setChild_ne (cs : List (String × Node)) {a c : String}
    (m : Node) (h : a ≠ c) :
    findChild (setChild cs c m) a = findChild cs a := by
  induction cs with
  | nil =>
    simp only [setChild, findChild]
    rw [if_neg (Ne.symm h)]
  | cons e cs ih =>
    obtain ⟨b, x⟩ := e
    by_cases hb : b = c
    · subst hb
      simp only [setChild, if_pos rfl, findChild]
      rw [if_neg (fun hh : b = a => h (hh ▸ rfl)), if_neg (fun hh : b = a => h (hh ▸ rfl))]
    · simp only [setChild, if_neg hb, findChild]
      by_cases hba : b = a
      · rw [if_pos hba, if_pos hba]
      · rw [if_neg hba, if_neg hba, ih]

theorem setChild_found {cs : List (String × Node)} {c : String} {m : Node}
    (h : findChild cs c = some m) : setChild cs c m = cs := by
  induction cs with
  | nil => simp [findChild] at h
  | cons e cs ih =>
    obtain ⟨a, x⟩ := e
    by_cases ha : a = c
    · subst ha
      have hx : x = m := by simpa [findChild] using h
      simp [setChild, hx]
    · simp only [findChild, if_neg ha] at h
      simp [setChild, ha, ih h]

theorem mem_of_findChild {cs : List (String × Node)} {c : String} {m : Node}
    (h : findChild cs c = some m) : c ∈ cs.map Prod.fst := by
  induction cs with
  | nil => simp [findChild] at h
  | cons e cs ih =>
    obtain ⟨a, x⟩ := e
    by_cases ha : a = c
    · simp [ha]
    · simp only [findChild, if_neg ha] at h
      simp [ih h]

theorem findChild_of_mem {cs : List (String × Node)} {c : String}
    (h : c ∈ cs.map Prod.fst) : ∃ m, findChild cs c = some m := by
  induction cs with
  | nil => simp at h
  | cons e cs ih =>
    obtain ⟨a, x⟩ := e
    by_cases ha : a = c
    · exact ⟨x, by simp [findChild, ha]⟩
    · simp only [List.map_cons, List.mem_cons] at h
      rcases h with h | h
      · exact absurd h.symm ha
      · obtain ⟨m, hm⟩ := ih h
        exact ⟨m, by simp [findChild, ha, hm]⟩

theorem setChild_setChild (cs : List (String × Node)) (c : String)
    (m m2 : Node) : setChild (setChild cs c m) c m2 = setChild cs c m2 := by
  induction cs with
  | nil => simp [setChild]
  | cons e cs ih =>
    obtain ⟨a, x⟩ := e
    by_cases ha : a = c
    · simp [setChild, ha]
    · simp [setChild, ha, ih]

/-! ### Update/lookup interaction lemmas -/

theorem pathLe_cons_same (c : String) (p q : Path) :
    pathLe (c :: p) (c :: q) = pathLe p q := by
  simp [pathLe]

theorem Node.update_nil (n : Node) (m : Node) : n.update [] m = m := by
  cases n <;> rfl

theorem dirLookup (cs : List (String × Node)) (c : String) (p : Path) :
    (Node.dir cs).lookup (c :: p) = (findChild cs c).bind (fun m => m.lookup p) := by
  cases h : findChild cs c <;> simp [Node.lookup, h]

theorem dirUpdate (cs : List (String × Node)) (c : String) (p : Path)
    (m : Node) :
    (Node.dir cs).update (c :: p) m = .dir (setChild cs c ((childD cs c).update p m)) :=
  rfl

theorem lookup_emptydir (q : Path) (hq : q ≠ []) :
    (Node.dir []).lookup q = none := by
  cases q with
  | nil => exact absurd rfl hq
  | cons c q => simp [dirLookup, findChild]

/-- Updating at `p` does not change lookups at a path diverging from `p`
(neither an initial segment of the other). -/
theorem lookup_update_diverge {p : Path} {n : Node} {q : Path} {m : Node}
    (hpq : pathLe p q = false) (hqp : pathLe q p = false) :
    (n.update p m).lookup q = n.lookup q := by
  induction p generalizing n q with
  | nil => simp [pathLe] at hpq
  | cons c p ih =>
    cases n with
    | file s => rfl
    | dir cs =>
      cases q with
      | nil => simp [pathLe] at hqp
      | cons a q =>
        by_cases hac : a = c
        · subst hac
          rw [pathLe_cons_same] at hpq hqp
          rw [dirUpdate, dirLookup, findChild_setChild_self, Option.some_bind,
            ih hpq hqp, dirLookup]
          cases hfc : findChild cs a with
          | some m0 => simp [childD, hfc]
          | none =>
            simp only [childD, hfc, Option.getD_none, Option.none_bind]
            cases q with
            | nil => simp [pathLe] at hqp
            | cons b q2 => simp [Node.lookup, findChild]
        · rw [dirUpdate, dirLookup, findChild_setChild_ne _ _ hac, dirLookup]

/-- Updating at `q ++ [c]` (with the directory at `q` resolvable) makes
lookups at and below `q ++ [c]` read the written node. -/
theorem lookup_update_concat {q : Path} {n : Node}
    {cs : List (String × Node)} (h : n.lookup q = some (.dir cs))
    (c : String) (m : Node) (r : Path) :
    (n.update (q ++ [c]) m).lookup ((q ++ [c]) ++ r) = m.lookup r := by
  induction q generalizing n cs with
  | nil =>
    have hn : n = .dir cs := by simpa [Node.lookup] using h
    subst hn
    simp only [List.nil_append, List.singleton_append, dirUpdate, dirLookup]
    rw [findChild_setChild_self, Option.some_bind, Node.update_nil]
  | cons a q ih =>
    cases n with
    | file s => simp [Node.lookup] at h
    | dir cs0 =>
      rw [dirLookup] at h
      cases hfc : findChild cs0 a with
      | none => rw [hfc] at h; simp at h
      | some m0 =>
        rw [hfc, Option.some_bind] at h
        simp only [List.cons_append, dirUpdate, dirLookup, childD, hfc,
          Option.getD_some]
        rw [findChild_setChild_self, Option.some_bind]
        exact ih h

/-- When a strict initial segment of the target resolves to a regular file,
`update` is the identity. -/
theorem update_eq_of_file {q : Path} {n : Node} {s : String} {p : Path}
    (h : n.lookup q = some (.file s)) (hle : pathLe q p = true)
    (hne : q ≠ p) (m : Node) : n.update p m = n := by
  induction q generalizing n p with
  | nil =>
    have hn : n = .file s := by simpa [Node.lookup] using h
    subst hn
    cases p with
    | nil => exact absurd rfl hne
    | cons c p => rfl
  | cons a q ih =>
    cases n with
    | file s2 => simp [Node.lookup] at h
    | dir cs =>
      rw [dirLookup] at h
      cases hfc : findChild cs a with
      | none => rw [hfc] at h; simp at h
      | some m0 =>
        rw [hfc, Option.some_bind] at h
        cases p with
        | nil => simp [pathLe] at hle
        | cons b p =>
          simp only [pathLe, Bool.and_eq_true, decide_eq_true_eq] at hle
          obtain ⟨rfl, hle2⟩ := hle
          have hne2 : q ≠ p := fun hh => hne (by rw [hh])
          rw [dirUpdate]
          simp only [childD, hfc, Option.getD_some]
          rw [ih h hle2 hne2, setChild_found hfc]

/-- Updating below a directory keeps it a directory. -/
theorem lookup_update_dir_of_le {q : Path} {n : Node}
    {cs : List (String × Node)} {p : Path} (h : n.lookup q = some (.dir cs))
    (hle : pathLe q p = true) (hne : q ≠ p) (m : Node) :
    ∃ cs2, (n.update p m).lookup q = some (.dir cs2) := by
  induction q generalizing n p cs with
  | nil =>
    have hn : n = .dir cs := by simpa [Node.lookup] using h
    subst hn
    cases p with
    | nil => exact absurd rfl hne
    | cons c p => exact ⟨_, rfl⟩
  | cons a q ih =>
    cases n with
    | file s => simp [Node.lookup] at h
    | dir cs0 =>
      rw [dirLookup] at h
      cases hfc : findChild cs0 a with
      | none => rw [hfc] at h; simp at h
      | some m0 =>
        rw [hfc, Option.some_bind] at h
        cases p with
        | nil => simp [pathLe] at hle
        | cons b p =>
          simp only [pathLe, Bool.and_eq_true, decide_eq_true_eq] at hle
          obtain ⟨rfl, hle2⟩ := hle
          have hne2 : q ≠ p := fun hh => hne (by rw [hh])
          rw [dirUpdate, dirLookup, findChild_setChild_self, Option.some_bind]
          simp only [childD, hfc, Option.getD_some]
          exact ih h hle2 hne2

/-- A regular file at a path not below the update target survives the
update with its contents. -/
theorem lookup_update_file {n : Node} {q : Path} {bs : String} {p : Path}
    (h : n.lookup q = some (.file bs)) (hple : pathLe p q = false)
    (m : Node) : (n.update p m).lookup q = some (.file bs) := by
  cases hqp : pathLe q p with
  | false => rw [lookup_update_diverge hple hqp]; exact h
  | true =>
    have hne : q ≠ p := fun hh => by
      subst hh; rw [pathLe_refl] at hple; exact Bool.noConfusion hple
    rw [update_eq_of_file h hqp hne]
    exact h

/-- An existing path not below the update target still exists after the
update. -/
theorem pathExists_update {n : Node} {q p : Path}
    (h : pathExists n q = true) (hple : pathLe p q = false) (m : Node) :
    pathExists (n.update p m) q = true := by
  simp only [pathExists, Option.isSome_iff_exists] at h ⊢
  obtain ⟨v, hv⟩ := h
  cases hqp : pathLe q p with
  | false => exact ⟨v, by rw [lookup_update_diverge hple hqp]; exact hv⟩
  | true =>
    have hne : q ≠ p := fun hh => by
      subst hh; rw [pathLe_refl] at hple; exact Bool.noConfusion hple
    cases v with
    | file s => exact ⟨.file s, by rw [update_eq_of_file hv hqp hne]; exact hv⟩
    | dir cs =>
      obtain ⟨cs2, hcs2⟩ := lookup_update_dir_of_le hv hqp hne m
      exact ⟨.dir cs2, hcs2⟩

/-- A regular file found after an update at a path not below the target was
already there before the update. -/
theorem lookup_update_file_rev {p : Path} {n : Node} {q : Path} {m : Node}
    {bs : String} (h : (n.update p m).lookup q = some (.file bs))
    (hple : pathLe p q = false) : n.lookup q = some (.file bs) := by
  induction p generalizing n q with
  | nil => simp [pathLe] at hple
  | cons c p ih =>
    cases n with
    | file s => exact h
    | dir cs =>
      cases q with
      | nil => simp [dirUpdate, Node.lookup] at h
      | cons a q =>
        by_cases hac : a = c
        · subst hac
          rw [pathLe_cons_same] at hple
          rw [dirUpdate, dirLookup, findChild_setChild_self, Option.some_bind] at h
          have h2 := ih h hple
          rw [dirLookup]
          cases hfc : findChild cs a with
          | some m0 =>
            simp only [childD, hfc, Option.getD_some] at h2
            simp [h2]
          | none =>
            simp only [childD, hfc, Option.getD_none] at h2
            rw [lookup_emptydir] at h2
            · exact Option.noConfusion h2
            · intro hq
              subst hq
              simp [Node.lookup] at h2
        · rw [dirUpdate, dirLookup, findChild_setChild_ne _ _ hac] at h
          rw [dirLookup]
          exact h

/-- An update whose payload is an empty directory never creates a regular
file anywhere. -/
theorem lookup_update_emptydir_file_rev {p : Path} {n : Node} {q : Path}
    {bs : String} (h : (n.update p (.dir [])).lookup q = some (.file bs)) :
    n.lookup q = some (.file bs) := by
  induction p generalizing n q with
  | nil =>
    simp only [Node.update] at h
    cases q with
    | nil => simp [Node.lookup] at h
    | cons a q => simp [dirLookup, findChild] at h
  | cons c p ih =>
    cases n with
    | file s => exact h
    | dir cs =>
      cases q with
      | nil => simp [dirUpdate, Node.lookup] at h
      | cons a q =>
        by_cases hac : a = c
        · subst hac
          rw [dirUpdate, dirLookup, findChild_setChild_self, Option.some_bind] at h
          have h2 := ih h
          rw [dirLookup]
          cases hfc : findChild cs a with
          | some m0 =>
            simp only [childD, hfc, Option.getD_some] at h2
            simp [h2]
          | none =>
            simp only [childD, hfc, Option.getD_none] at h2
            cases q with
            | nil => simp [Node.lookup] at h2
            | cons b q2 => simp [dirLookup, findChild] at h2
        · rw [dirUpdate, dirLookup, findChild_setChild_ne _ _ hac] at h
          rw [dirLookup]
          exact h

/-- Nested updates below a freshly written child collapse into one update. -/
theorem update_update_concat {q : Path} {n : Node}
    {cs : List (String × Node)} (h : n.lookup q = some (.dir cs))
    (c : String) (a b : Node) (r : Path) :
    (n.update (q ++ [c]) a).update ((q ++ [c]) ++ r) b =
      n.update (q ++ [c]) (a.update r b) := by
  induction q generalizing n cs with
  | nil =>
    have hn : n = .dir cs := by simpa [Node.lookup] using h
    subst hn
    simp only [List.nil_append, List.singleton_append, dirUpdate, childD]
    rw [findChild_setChild_self]
    simp only [Option.getD_some]
    rw [setChild_setChild]
    simp [Node.update]
  | cons a0 q ih =>
    cases n with
    | file s => simp [Node.lookup] at h
    | dir cs0 =>
      rw [dirLookup] at h
      cases hfc : findChild cs0 a0 with
      | none => rw [hfc] at h; simp at h
      | some m0 =>
        rw [hfc, Option.some_bind] at h
        simp only [List.cons_append, dirUpdate, childD, hfc, Option.getD_some]
        rw [findChild_setChild_self]
        simp only [Option.getD_some]
        rw [setChild_setChild]
        exact congrArg (fun z => Node.dir (setChild cs0 a0 z)) (ih h)

/-! ### Basic facts about lookup and existence -/

theorem Node.lookup_nil (n : Node) : n.lookup [] = some n := by
  cases n <;> rfl

theorem pathExists_nil (n : Node) : pathExists n [] = true := by
  simp [pathExists, Node.lookup_nil]

theorem pathExists_false_iff {n : Node} {p : Path} :
    pathExists n p = false ↔ n.lookup p = none := by
  cases h : n.lookup p <;> simp [pathExists, h]

theorem pathExists_true_iff {n : Node} {p : Path} :
    pathExists n p = true ↔ ∃ v, n.lookup p = some v := by
  cases h : n.lookup p <;> simp [pathExists, h]

theorem pathLe_dropLast (p : Path) : pathLe p.dropLast p = true := by
  induction p with
  | nil => rfl
  | cons a p ih =>
    cases p with
    | nil => rfl
    | cons b q => simpa [List.dropLast, pathLe] using ih

/-! ### mkdir lemmas -/

theorem mkdir_ok {denied : List Path} {root : Node} {p : Path} {r : Node}
    (h : mkdir denied root p = .ok r) :
    pathExists root p = false ∧
      (∃ cs, root.lookup p.dropLast = some (.dir cs)) ∧
      r = root.update p (.dir []) := by
  unfold mkdir at h
  by_cases he : pathExists root p
  · rw [if_pos he] at h; exact Except.noConfusion h
  · rw [if_neg he] at h
    refine ⟨by simpa using he, ?_⟩
    cases hpar : root.lookup p.dropLast with
    | none => rw [hpar] at h; exact Except.noConfusion h
    | some v =>
      cases v with
      | file s => rw [hpar] at h; exact Except.noConfusion h
      | dir cs =>
        rw [hpar] at h
        by_cases hd : p ∈ denied
        · rw [if_pos hd] at h; exact Except.noConfusion h
        · rw [if_neg hd] at h
          cases h
          exact ⟨⟨cs, rfl⟩, rfl⟩

theorem mkdir_eexist {denied : List Path} {root : Node} {p : Path}
    (h : pathExists root p = true) :
    mkdir denied root p = .error (.EEXIST p) := by
  unfold mkdir
  rw [if_pos h]

theorem mkdir_eexist_rev {denied : List Path} {root : Node} {p : Path}
    {e : Errno} (h : mkdir denied root p = .error e)
    (he : e.isEEXIST = true) : pathExists root p = true := by
  unfold mkdir at h
  by_cases hex : pathExists root p
  · exact hex
  · rw [if_neg hex] at h
    cases hpar : root.lookup p.dropLast with
    | none =>
      rw [hpar] at h
      cases h
      simp [Errno.isEEXIST] at he
    | some v =>
      cases v with
      | file s =>
        rw [hpar] at h
        cases h
        simp [Errno.isEEXIST] at he
      | dir cs =>
        rw [hpar] at h
        by_cases hd : p ∈ denied
        · rw [if_pos hd] at h
          cases h
          simp [Errno.isEEXIST] at he
        · rw [if_neg hd] at h
          exact Except.noConfusion h

theorem mkdir_no_enoent {denied : List Path} {root : Node} {p : Path}
    {e : Errno} (hpar : (root.lookup p.dropLast).isSome = true)
    (h : mkdir denied root p = .error e) : ∀ q, e ≠ .ENOENT q := by
  intro q
  unfold mkdir at h
  by_cases hex : pathExists root p
  · rw [if_pos hex] at h
    cases h
    exact fun hh => Errno.noConfusion hh
  · rw [if_neg hex] at h
    cases hpl : root.lookup p.dropLast with
    | none => rw [hpl] at hpar; simp at hpar
    | some v =>
      rw [hpl] at h
      cases v with
      | file s =>
        cases h
        exact fun hh => Errno.noConfusion hh
      | dir cs =>
        by_cases hd : p ∈ denied
        · rw [if_pos hd] at h
          cases h
          exact fun hh => Errno.noConfusion hh
        · rw [if_neg hd] at h
          exact Except.noConfusion h

theorem mkdir_lookup_after {denied : List Path} {root : Node} {p : Path}
    {r : Node} (h : mkdir denied root p = .ok r) :
    r.lookup p = some (.dir []) := by
  obtain ⟨hex, ⟨cs, hpar⟩, rfl⟩ := mkdir_ok h
  have hp : p ≠ [] := by
    intro hp
    subst hp
    rw [pathExists_nil] at hex
    exact Bool.noConfusion hex
  have hsplit := List.dropLast_append_getLast hp
  calc (root.update p (.dir [])).lookup p
      = (root.update (p.dropLast ++ [p.getLast hp]) (.dir [])).lookup
          ((p.dropLast ++ [p.getLast hp]) ++ []) := by rw [hsplit, List.append_nil]
    _ = (Node.dir []).lookup [] := lookup_update_concat hpar _ _ _
    _ = some (.dir []) := rfl

theorem mkdir_file_pres {denied : List Path} {root : Node} {p : Path}
    {r : Node} (h : mkdir denied root p = .ok r) {q : Path} {bs : String}
    (hq : root.lookup q = some (.file bs)) :
    r.lookup q = some (.file bs) := by
  obtain ⟨hex, _, rfl⟩ := mkdir_ok h
  have hple : pathLe p q = false := by
    cases hc : pathLe p q with
    | false => rfl
    | true =>
      rw [lookup_none_of_pathLe hc (pathExists_false_iff.mp (by simpa using hex))] at hq
      exact Option.noConfusion hq
  exact lookup_update_file hq hple _

theorem mkdir_exists_pres {denied : List Path} {root : Node} {p : Path}
    {r : Node} (h : mkdir denied root p = .ok r) {q : Path}
    (hq : pathExists root q = true) : pathExists r q = true := by
  obtain ⟨hex, _, rfl⟩ := mkdir_ok h
  have hple : pathLe p q = false := by
    cases hc : pathLe p q with
    | false => rfl
    | true =>
      obtain ⟨v, hv⟩ := pathExists_true_iff.mp hq
      rw [lookup_none_of_pathLe hc (pathExists_false_iff.mp (by simpa using hex))] at hv
      exact Option.noConfusion hv
  exact pathExists_update hq hple _

theorem mkdir_dir_pres {denied : List Path} {root : Node} {p : Path}
    {r : Node} (h : mkdir denied root p = .ok r) {q : Path}
    {cs0 : List (String × Node)} (hq : root.lookup q = some (.dir cs0)) :
    ∃ cs1, r.lookup q = some (.dir cs1) := by
  obtain ⟨hex, _, rfl⟩ := mkdir_ok h
  have hple : pathLe p q = false := by
    cases hc : pathLe p q with
    | false => rfl
    | true =>
      rw [lookup_none_of_pathLe hc (pathExists_false_iff.mp (by simpa using hex))] at hq
      exact Option.noConfusion hq
  cases hqp : pathLe q p with
  | false => exact ⟨cs0, by rw [lookup_update_diverge hple hqp]; exact hq⟩
  | true =>
    have hne : q ≠ p := by
      intro hh
      subst hh
      rw [pathExists_false_iff.mp (by simpa using hex)] at hq
      exact Option.noConfusion hq
    exact lookup_update_dir_of_le hq hqp hne _

theorem mkdir_file_rev {denied : List Path} {root : Node} {p : Path}
    {r : Node} (h : mkdir denied root p = .ok r) {q : Path} {bs : String}
    (hq : r.lookup q = some (.file bs)) :
    root.lookup q = some (.file bs) := by
  obtain ⟨_, _, rfl⟩ := mkdir_ok h
  exact lookup_update_emptydir_file_rev hq

theorem mkdir_none_pres {denied : List Path} {root : Node} {p : Path}
    {r : Node} (h : mkdir denied root p = .ok r) {q : Path}
    (hq : root.lookup q = none) (hqp : pathLe q p = false) :
    r.lookup q = none := by
  obtain ⟨hex, ⟨cs, hpar⟩, rfl⟩ := mkdir_ok h
  cases hpq : pathLe p q with
  | false => rw [lookup_update_diverge hpq hqp]; exact hq
  | true =>
    have hp : p ≠ [] := by
      intro hp
      subst hp
      rw [pathExists_nil] at hex
      exact Bool.noConfusion hex
    obtain ⟨rest, rfl⟩ := pathLe_iff.mp hpq
    have hrest : rest ≠ [] := by
      intro hh
      subst hh
      rw [List.append_nil] at hqp
      rw [pathLe_refl] at hqp
      exact Bool.noConfusion hqp
    have hsplit := List.dropLast_append_getLast hp
    calc (root.update p (.dir [])).lookup (p ++ rest)
        = (root.update (p.dropLast ++ [p.getLast hp]) (.dir [])).lookup
            ((p.dropLast ++ [p.getLast hp]) ++ rest) := by rw [hsplit]
      _ = (Node.dir []).lookup rest := lookup_update_concat hpar _ _ _
      _ = none := lookup_emptydir rest hrest

theorem mkdir_exact {denied : List Path} {root : Node} {p : Path}
    {r : Node} (h : mkdir denied root p = .ok r) {q : Path} {v : Node}
    (hq : root.lookup q = some v) (hqp : pathLe q p = false) :
    r.lookup q = some v := by
  obtain ⟨hex, _, rfl⟩ := mkdir_ok h
  have hple : pathLe p q = false := by
    cases hc : pathLe p q with
    | false => rfl
    | true =>
      rw [lookup_none_of_pathLe hc (pathExists_false_iff.mp (by simpa using hex))] at hq
      exact Option.noConfusion hq
  rw [lookup_update_diverge hple hqp]
  exact hq

/-! ### makedirs lemmas -/

/-- Relational induction for a successful `makedirsGo`: any reflexive,
transitive relation preserved by each single successful `mkdir` at an
initial segment of the full target holds between the initial and final
trees. -/
theorem makedirsGo_rel {denied : List Path} (P : Node → Node → Prop)
    (_hrefl : ∀ n, P n n) (htrans : ∀ a b c, P a b → P b c → P a c)
    {full : Path}
    (hstep : ∀ n q r2, pathLe q full = true → mkdir denied n q = .ok r2 → P n r2) :
    ∀ rest root pre r, pre ++ rest = full →
      makedirsGo denied root pre rest = .ok r → P root r := by
  intro rest
  induction rest with
  | nil =>
    intro root pre r hfull h
    simp only [makedirsGo] at h
    rw [List.append_nil] at hfull
    exact hstep root pre r (hfull ▸ pathLe_refl pre) h
  | cons c rest ih =>
    intro root pre r hfull h
    cases rest with
    | nil =>
      simp only [makedirsGo] at h
      exact hstep root (pre ++ [c]) r (hfull ▸ pathLe_refl _) h
    | cons c₁ rest₂ =>
      simp only [makedirsGo] at h
      have hfull2 : (pre ++ [c]) ++ (c₁ :: rest₂) = full := by
        rw [List.append_assoc]; exact hfull
      by_cases hex : pathExists root (pre ++ [c])
      · rw [if_pos hex] at h
        exact ih root (pre ++ [c]) r hfull2 h
      · rw [if_neg hex] at h
        cases hmk : mkdir denied root (pre ++ [c]) with
        | ok r1 =>
          rw [hmk] at h
          have hle : pathLe (pre ++ [c]) full = true := by
            rw [← hfull2]; exact pathLe_append _ _
          exact htrans _ _ _ (hstep root (pre ++ [c]) r1 hle hmk)
            (ih r1 (pre ++ [c]) r hfull2 h)
        | error e =>
          rw [hmk] at h
          simp only at h
          by_cases hee : e.isEEXIST
          · rw [if_pos hee] at h
            exact ih root (pre ++ [c]) r hfull2 h
          · rw [if_neg hee] at h
            exact Except.noConfusion h

theorem makedirs_rel {denied : List Path} (P : Node → Node → Prop)
    (hrefl : ∀ n, P n n) (htrans : ∀ a b c, P a b → P b c → P a c)
    {p : Path} {root r : Node}
    (hstep : ∀ n q r2, pathLe q p = true → mkdir denied n q = .ok r2 → P n r2)
    (h : makedirs denied root p = .ok r) : P root r :=
  makedirsGo_rel P hrefl htrans hstep p root [] r rfl h

theorem makedirs_file_pres {denied : List Path} {root r : Node} {p : Path}
    (h : makedirs denied root p = .ok r) {q : Path} {bs : String}
    (hq : root.lookup q = some (.file bs)) : r.lookup q = some (.file bs) := by
  refine makedirs_rel
    (fun a b => a.lookup q = some (.file bs) → b.lookup q = some (.file bs))
    (fun n hh => hh) (fun a b c h1 h2 hh => h2 (h1 hh)) ?_ h hq
  intro n q2 r2 _ hmk hh
  exact mkdir_file_pres hmk hh

theorem makedirs_exists_pres {denied : List Path} {root r : Node} {p : Path}
    (h : makedirs denied root p = .ok r) {q : Path}
    (hq : pathExists root q = true) : pathExists r q = true := by
  refine makedirs_rel
    (fun a b => pathExists a q = true → pathExists b q = true)
    (fun n hh => hh) (fun a b c h1 h2 hh => h2 (h1 hh)) ?_ h hq
  intro n q2 r2 _ hmk hh
  exact mkdir_exists_pres hmk hh

theorem makedirs_dir_pres {denied : List Path} {root r : Node} {p : Path}
    (h : makedirs denied root p = .ok r) {q : Path}
    {cs0 : List (String × Node)} (hq : root.lookup q = some (.dir cs0)) :
    ∃ cs1, r.lookup q = some (.dir cs1) := by
  refine makedirs_rel
    (fun a b => (∃ cs1, a.lookup q = some (.dir cs1)) →
      ∃ cs1, b.lookup q = some (.dir cs1))
    (fun n hh => hh) (fun a b c h1 h2 hh => h2 (h1 hh)) ?_ h ⟨cs0, hq⟩
  intro n q2 r2 _ hmk hh
  obtain ⟨cs1, hcs1⟩ := hh
  exact mkdir_dir_pres hmk hcs1

theorem makedirs_file_rev {denied : List Path} {root r : Node} {p : Path}
    (h : makedirs denied root p = .ok r) {q : Path} {bs : String}
    (hq : r.lookup q = some (.file bs)) : root.lookup q = some (.file bs) := by
  refine makedirs_rel
    (fun a b => b.lookup q = some (.file bs) → a.lookup q = some (.file bs))
    (fun n hh => hh) (fun a b c h1 h2 hh => h1 (h2 hh)) ?_ h hq
  intro n q2 r2 _ hmk hh
  exact mkdir_file_rev hmk hh

theorem makedirs_exact {denied : List Path} {root r : Node} {p : Path}
    (h : makedirs denied root p = .ok r) {q : Path} {v : Node}
    (hq : root.lookup q = some v) (hqp : pathLe q p = false) :
    r.lookup q = some v := by
  refine makedirs_rel (fun a b => a.lookup q = some v → b.lookup q = some v)
    (fun n hh => hh) (fun a b c h1 h2 hh => h2 (h1 hh)) ?_ h hq
  intro n q2 r2 hle hmk hh
  have hqq2 : pathLe q q2 = false := by
    cases hc : pathLe q q2 with
    | false => rfl
    | true => rw [pathLe_trans hc hle] at hqp; exact Bool.noConfusion hqp
  exact mkdir_exact hmk hh hqq2

theorem makedirs_none_pres {denied : List Path} {root r : Node} {p : Path}
    (h : makedirs denied root p = .ok r) {q : Path}
    (hq : root.lookup q = none) (hqp : pathLe q p = false) :
    r.lookup q = none := by
  refine makedirs_rel (fun a b => a.lookup q = none → b.lookup q = none)
    (fun n hh => hh) (fun a b c h1 h2 hh => h2 (h1 hh)) ?_ h hq
  intro n q2 r2 hle hmk hh
  have hqq2 : pathLe q q2 = false := by
    cases hc : pathLe q q2 with
    | false => rfl
    | true => rw [pathLe_trans hc hle] at hqp; exact Bool.noConfusion hqp
  exact mkdir_none_pres hmk hh hqq2

/-- `os.makedirs` on an existing path (of any node kind) raises EEXIST for
the full path. -/
theorem makedirsGo_exists_eexist {denied : List Path} :
    ∀ rest root pre, pathExists root (pre ++ rest) = true →
      makedirsGo denied root pre rest = .error (.EEXIST (pre ++ rest)) := by
  intro rest
  induction rest with
  | nil =>
    intro root pre h
    rw [List.append_nil] at h
    simp only [makedirsGo]
    rw [mkdir_eexist h, List.append_nil]
  | cons c rest ih =>
    intro root pre h
    cases rest with
    | nil => simp only [makedirsGo]; rw [mkdir_eexist h]
    | cons c₁ rest₂ =>
      have hassoc : pre ++ c :: c₁ :: rest₂ = (pre ++ [c]) ++ (c₁ :: rest₂) := by
        rw [List.append_assoc]; rfl
      have hex : pathExists root (pre ++ [c]) = true := by
        obtain ⟨v, hv⟩ := pathExists_true_iff.mp h
        rw [hassoc] at hv
        obtain ⟨m, hm⟩ := lookup_isSome_of_append hv
        exact pathExists_true_iff.mpr ⟨m, hm⟩
      simp only [makedirsGo]
      rw [if_pos hex, hassoc]
      exact ih root (pre ++ [c]) (by rw [← hassoc]; exact h)

theorem makedirs_exists_eexist {denied : List Path} {root : Node} {p : Path}
    (h : pathExists root p = true) :
    makedirs denied root p = .error (.EEXIST p) :=
  makedirsGo_exists_eexist p root [] h

/-- Inside a freshly created (empty) directory `makedirsGo` can never raise
EEXIST. -/
theorem makedirsGo_fresh_no_eexist {denied : List Path} :
    ∀ rest root pre c e,
      root.lookup pre = some (.dir []) →
      makedirsGo denied root pre (c :: rest) = .error e →
      e.isEEXIST = false := by
  intro rest
  induction rest with
  | nil =>
    intro root pre c e hfresh h
    simp only [makedirsGo] at h
    have hex : pathExists root (pre ++ [c]) = false :=
      pathExists_false_iff.mpr (lookup_below_empty hfresh (by simp))
    cases hee : e.isEEXIST with
    | false => rfl
    | true =>
      rw [mkdir_eexist_rev h hee] at hex
      exact Bool.noConfusion hex
  | cons c₁ rest₂ ih =>
    intro root pre c e hfresh h
    simp only [makedirsGo] at h
    have hex : pathExists root (pre ++ [c]) = false :=
      pathExists_false_iff.mpr (lookup_below_empty hfresh (by simp))
    rw [if_neg (by rw [hex]; exact Bool.noConfusion)] at h
    cases hmk : mkdir denied root (pre ++ [c]) with
    | ok r1 =>
      rw [hmk] at h
      have hfresh1 : r1.lookup (pre ++ [c]) = some (.dir []) :=
        mkdir_lookup_after hmk
      exact ih r1 (pre ++ [c]) c₁ e hfresh1 h
    | error e0 =>
      rw [hmk] at h
      simp only at h
      cases hee0 : e0.isEEXIST with
      | true =>
        rw [mkdir_eexist_rev hmk hee0] at hex
        exact Bool.noConfusion hex
      | false =>
        rw [if_neg (by rw [hee0]; exact Bool.noConfusion)] at h
        cases h
        exact hee0

/-- When `makedirsGo` raises EEXIST, the full path already existed. -/
theorem makedirsGo_eexist_exists {denied : List Path} :
    ∀ rest root pre e, makedirsGo denied root pre rest = .error e →
      e.isEEXIST = true → pathExists root (pre ++ rest) = true := by
  intro rest
  induction rest with
  | nil =>
    intro root pre e h hee
    simp only [makedirsGo] at h
    rw [List.append_nil]
    exact mkdir_eexist_rev h hee
  | cons c rest ih =>
    intro root pre e h hee
    cases rest with
    | nil =>
      simp only [makedirsGo] at h
      exact mkdir_eexist_rev h hee
    | cons c₁ rest₂ =>
      have hassoc : pre ++ c :: c₁ :: rest₂ = (pre ++ [c]) ++ (c₁ :: rest₂) := by
        rw [List.append_assoc]; rfl
      simp only [makedirsGo] at h
      by_cases hex : pathExists root (pre ++ [c])
      · rw [if_pos hex] at h
        rw [hassoc]
        exact ih root (pre ++ [c]) e h hee
      · rw [if_neg hex] at h
        cases hmk : mkdir denied root (pre ++ [c]) with
        | ok r1 =>
          rw [hmk] at h
          have hfresh1 : r1.lookup (pre ++ [c]) = some (.dir []) :=
            mkdir_lookup_after hmk
          rw [makedirsGo_fresh_no_eexist rest₂ r1 (pre ++ [c]) c₁ e hfresh1 h] at hee
          exact Bool.noConfusion hee
        | error e0 =>
          rw [hmk] at h
          simp only at h
          cases hee0 : e0.isEEXIST with
          | true =>
            rw [mkdir_eexist_rev hmk hee0] at hex
            exact absurd rfl hex
          | false =>
            rw [if_neg (by rw [hee0]; exact Bool.noConfusion)] at h
            cases h
            rw [hee0] at hee
            exact Bool.noConfusion hee

theorem makedirs_eexist_exists {denied : List Path} {root : Node} {p : Path}
    {e : Errno} (h : makedirs denied root p = .error e)
    (hee : e.isEEXIST = true) : pathExists root p = true :=
  makedirsGo_eexist_exists p root [] e h hee

/-- `makedirsGo` starting from an existing prefix never raises ENOENT. -/
theorem makedirsGo_no_enoent {denied : List Path} :
    ∀ rest root pre e, pathExists root pre = true →
      makedirsGo denied root pre rest = .error e → ∀ q, e ≠ .ENOENT q := by
  intro rest
  induction rest with
  | nil =>
    intro root pre e hpre h q
    simp only [makedirsGo] at h
    have hpar : (root.lookup pre.dropLast).isSome = true := by
      obtain ⟨v, hv⟩ := pathExists_true_iff.mp hpre
      obtain ⟨m, hm⟩ := lookup_exists_of_pathLe (pathLe_dropLast pre) hv
      simp [hm]
    exact mkdir_no_enoent hpar h q
  | cons c rest ih =>
    intro root pre e hpre h q
    cases rest with
    | nil =>
      simp only [makedirsGo] at h
      have hpar : (root.lookup (pre ++ [c]).dropLast).isSome = true := by
        rw [List.dropLast_concat]
        obtain ⟨v, hv⟩ := pathExists_true_iff.mp hpre
        simp [hv]
      exact mkdir_no_enoent hpar h q
    | cons c₁ rest₂ =>
      simp only [makedirsGo] at h
      by_cases hex : pathExists root (pre ++ [c])
      · rw [if_pos hex] at h
        exact ih root (pre ++ [c]) e hex h q
      · rw [if_neg hex] at h
        cases hmk : mkdir denied root (pre ++ [c]) with
        | ok r1 =>
          rw [hmk] at h
          have hex1 : pathExists r1 (pre ++ [c]) = true := by
            rw [pathExists_true_iff]
            exact ⟨_, mkdir_lookup_after hmk⟩
          exact ih r1 (pre ++ [c]) e hex1 h q
        | error e0 =>
          rw [hmk] at h
          simp only at h
          cases hee0 : e0.isEEXIST with
          | true =>
            rw [if_pos hee0] at h
            exact ih root (pre ++ [c]) e (mkdir_eexist_rev hmk hee0) h q
          | false =>
            rw [if_neg (by rw [hee0]; exact Bool.noConfusion)] at h
            cases h
            have hpar : (root.lookup (pre ++ [c]).dropLast).isSome = true := by
              rw [List.dropLast_concat]
              obtain ⟨v, hv⟩ := pathExists_true_iff.mp hpre
              simp [hv]
            exact mkdir_no_enoent hpar hmk q

theorem makedirs_no_enoent {denied : List Path} {root : Node} {p : Path}
    {e : Errno} (h : makedirs denied root p = .error e) :
    ∀ q, e ≠ .ENOENT q :=
  makedirsGo_no_enoent p root [] e (pathExists_nil root) h

/-- After a successful `makedirsGo` the full path exists. -/
theorem makedirsGo_exists_after {denied : List Path} :
    ∀ rest root pre r, makedirsGo denied root pre rest = .ok r →
      pathExists r (pre ++ rest) = true := by
  intro rest
  induction rest with
  | nil =>
    intro root pre r h
    simp only [makedirsGo] at h
    rw [List.append_nil, pathExists_true_iff]
    exact ⟨_, mkdir_lookup_after h⟩
  | cons c rest ih =>
    intro root pre r h
    cases rest with
    | nil =>
      simp only [makedirsGo] at h
      rw [pathExists_true_iff]
      exact ⟨_, mkdir_lookup_after h⟩
    | cons c₁ rest₂ =>
      have hassoc : pre ++ c :: c₁ :: rest₂ = (pre ++ [c]) ++ (c₁ :: rest₂) := by
        rw [List.append_assoc]; rfl
      simp only [makedirsGo] at h
      rw [hassoc]
      by_cases hex : pathExists root (pre ++ [c])
      · rw [if_pos hex] at h
        exact ih root (pre ++ [c]) r h
      · rw [if_neg hex] at h
        cases hmk : mkdir denied root (pre ++ [c]) with
        | ok r1 =>
          rw [hmk] at h
          exact ih r1 (pre ++ [c]) r h
        | error e0 =>
          rw [hmk] at h
          simp only at h
          by_cases hee0 : e0.isEEXIST
          · rw [if_pos hee0] at h
            exact ih root (pre ++ [c]) r h
          · rw [if_neg hee0] at h
            exact Except.noConfusion h

theorem makedirs_exists_after {denied : List Path} {root : Node} {p : Path}
    {r : Node} (h : makedirs denied root p = .ok r) :
    pathExists r p = true :=
  makedirsGo_exists_after p root [] r h

/-- `makedirsGo` walks through an existing prefix without touching it. -/
theorem makedirsGo_through (denied : List Path) :
    ∀ q root pre rest, (root.lookup (pre ++ q)).isSome = true → rest ≠ [] →
      makedirsGo denied root pre (q ++ rest) =
        makedirsGo denied root (pre ++ q) rest := by
  intro q
  induction q with
  | nil => intro root pre rest _ _; rw [List.nil_append, List.append_nil]
  | cons c q ih =>
    intro root pre rest hex hrest
    have hexc : pathExists root (pre ++ [c]) = true := by
      obtain ⟨v, hv⟩ := Option.isSome_iff_exists.mp hex
      have hle : pathLe (pre ++ [c]) (pre ++ c :: q) = true := by
        rw [pathLe_cancel]
        simp [pathLe]
      obtain ⟨m, hm⟩ := lookup_exists_of_pathLe hle hv
      exact pathExists_true_iff.mpr ⟨m, hm⟩
    cases hqr : q ++ rest with
    | nil =>
      obtain ⟨hq0, hr0⟩ := List.append_eq_nil.mp hqr
      exact absurd hr0 hrest
    | cons c₁ rest₂ =>
      have step : makedirsGo denied root pre (c :: c₁ :: rest₂) =
          makedirsGo denied root (pre ++ [c]) (c₁ :: rest₂) := by
        simp only [makedirsGo]
        rw [if_pos hexc]
      calc makedirsGo denied root pre ((c :: q) ++ rest)
          = makedirsGo denied root pre (c :: c₁ :: rest₂) := by
            rw [List.cons_append, hqr]
        _ = makedirsGo denied root (pre ++ [c]) (c₁ :: rest₂) := step
        _ = makedirsGo denied root (pre ++ [c]) (q ++ rest) := by rw [hqr]
        _ = makedirsGo denied root ((pre ++ [c]) ++ q) rest := by
            refine ih root (pre ++ [c]) rest ?_ hrest
            rw [List.append_assoc]
            simpa using hex
        _ = makedirsGo denied root (pre ++ (c :: q)) rest := by
            rw [List.append_assoc]
            rfl

/-- The directory chain a fresh `makedirs` run builds below an existing
directory: one new directory per remaining component. -/
def nestedDirs : List String → Node
  | [] => .dir []
  | c :: cs => .dir [(c, nestedDirs cs)]

theorem emptydir_update_single (c : String) (x : Node) :
    (Node.dir []).update [c] x = .dir [(c, x)] := by
  rw [dirUpdate, Node.update_nil]
  rfl

/-- A fresh creation below an existing directory: `makedirsGo` with no
denied paths builds exactly the nested chain of new directories. -/
theorem makedirsGo_fresh :
    ∀ rest root pre c (cs : List (String × Node)),
      root.lookup pre = some (.dir cs) →
      pathExists root (pre ++ [c]) = false →
      makedirsGo [] root pre (c :: rest) =
        .ok (root.update (pre ++ [c]) (nestedDirs rest)) := by
  intro rest
  induction rest with
  | nil =>
    intro root pre c cs hpre hex
    simp only [makedirsGo]
    unfold mkdir
    rw [if_neg (by rw [hex]; exact Bool.noConfusion)]
    rw [List.dropLast_concat, hpre]
    simp [nestedDirs]
  | cons c₁ rest₂ ih =>
    intro root pre c cs hpre hex
    simp only [makedirsGo]
    rw [if_neg (by rw [hex]; exact Bool.noConfusion)]
    have hmk : mkdir [] root (pre ++ [c]) = .ok (root.update (pre ++ [c]) (.dir [])) := by
      unfold mkdir
      rw [if_neg (by rw [hex]; exact Bool.noConfusion)]
      rw [List.dropLast_concat, hpre]
      simp
    rw [hmk]
    simp only
    set r1 := root.update (pre ++ [c]) (.dir []) with hr1
    have hfresh : r1.lookup (pre ++ [c]) = some (.dir []) := by
      rw [hr1]
      have := lookup_update_concat hpre c (.dir []) []
      rw [List.append_nil] at this
      rw [this, Node.lookup_nil]
    have hex1 : pathExists r1 ((pre ++ [c]) ++ [c₁]) = false :=
      pathExists_false_iff.mpr (lookup_below_empty hfresh (by simp))
    rw [ih r1 (pre ++ [c]) c₁ [] hfresh hex1]
    rw [hr1, update_update_concat hpre c (.dir []) (nestedDirs rest₂) [c₁]]
    rw [emptydir_update_single]
    rfl

/-- A fresh `makedirs` (no denied paths) whose first missing component sits
directly below an existing directory builds exactly the nested chain. -/
theorem makedirs_fresh_chain {root : Node} {pre : Path} {c : String}
    {cs : List (String × Node)} (hpre : root.lookup pre = some (.dir cs))
    (hex : pathExists root (pre ++ [c]) = false) (rest : List String) :
    makedirs [] root (pre ++ c :: rest) =
      .ok (root.update (pre ++ [c]) (nestedDirs rest)) := by
  unfold makedirs
  have hthrough := makedirsGo_through [] pre root [] (c :: rest)
    (by rw [List.nil_append]; simp [hpre]) (by simp)
  rw [hthrough, List.nil_append]
  exact makedirsGo_fresh rest root pre c cs hpre hex

/-- When the parent of the target exists, `makedirs` reduces to the final
`mkdir`. -/
theorem makedirs_parent {denied : List Path} {root : Node} {p : Path}
    (hpar : (root.lookup p.dropLast).isSome = true) (hp : p ≠ []) :
    makedirs denied root p = mkdir denied root p := by
  unfold makedirs
  have hsplit := List.dropLast_append_getLast hp
  calc makedirsGo denied root [] p
      = makedirsGo denied root [] (p.dropLast ++ [p.getLast hp]) := by rw [hsplit]
    _ = makedirsGo denied root ([] ++ p.dropLast) [p.getLast hp] := by
        refine makedirsGo_through denied p.dropLast root [] [p.getLast hp] ?_
          (by simp)
        rw [List.nil_append]
        exact hpar
    _ = mkdir denied root (p.dropLast ++ [p.getLast hp]) := by
        rw [List.nil_append]
        simp only [makedirsGo]
    _ = mkdir denied root p := by rw [hsplit]

/-! ### mkdir_p lemmas -/

theorem mkdir_p_trace (denied : List Path) (root : Node) (p : Path) :
    (mkdir_p denied root p).trace = ["CREATE: " ++ pathStr p] := rfl

theorem mkdir_p_ok_of_makedirs {denied : List Path} {root r : Node} {p : Path}
    (h : makedirs denied root p = .ok r) :
    mkdir_p denied root p = ⟨["CREATE: " ++ pathStr p], .ok r⟩ := by
  unfold mkdir_p
  rw [h]

theorem mkdir_p_ok_cases {denied : List Path} {root : Node} {p : Path}
    {r : Node} (h : (mkdir_p denied root p).res = .ok r) :
    makedirs denied root p = .ok r ∨
      (r = root ∧ pathExists root p = true) := by
  unfold mkdir_p at h
  cases hmd : makedirs denied root p with
  | ok r2 =>
    rw [hmd] at h
    simp only at h
    cases h
    exact Or.inl rfl
  | error e =>
    rw [hmd] at h
    simp only at h
    cases hee : e.isEEXIST with
    | true =>
      rw [hee] at h
      simp only [if_true] at h
      cases h
      exact Or.inr ⟨rfl, makedirs_eexist_exists hmd hee⟩
    | false =>
      rw [hee] at h
      simp at h

theorem mkdir_p_exists_after {denied : List Path} {root : Node} {p : Path}
    {r : Node} (h : (mkdir_p denied root p).res = .ok r) :
    pathExists r p = true := by
  rcases mkdir_p_ok_cases h with hmd | ⟨rfl, hex⟩
  · exact makedirs_exists_after hmd
  · exact hex

theorem mkdir_p_file_pres {denied : List Path} {root : Node} {p : Path}
    {r : Node} (h : (mkdir_p denied root p).res = .ok r) {q : Path}
    {bs : String} (hq : root.lookup q = some (.file bs)) :
    r.lookup q = some (.file bs) := by
  rcases mkdir_p_ok_cases h with hmd | ⟨rfl, _⟩
  · exact makedirs_file_pres hmd hq
  · exact hq

theorem mkdir_p_exists_pres {denied : List Path} {root : Node} {p : Path}
    {r : Node} (h : (mkdir_p denied root p).res = .ok r) {q : Path}
    (hq : pathExists root q = true) : pathExists r q = true := by
  rcases mkdir_p_ok_cases h with hmd | ⟨rfl, _⟩
  · exact makedirs_exists_pres hmd hq
  · exact hq

theorem mkdir_p_file_rev {denied : List Path} {root : Node} {p : Path}
    {r : Node} (h : (mkdir_p denied root p).res = .ok r) {q : Path}
    {bs : String} (hq : r.lookup q = some (.file bs)) :
    root.lookup q = some (.file bs) := by
  rcases mkdir_p_ok_cases h with hmd | ⟨rfl, _⟩
  · exact makedirs_file_rev hmd hq
  · exact hq

theorem mkdir_p_exact {denied : List Path} {root : Node} {p : Path}
    {r : Node} (h : (mkdir_p denied root p).res = .ok r) {q : Path}
    {v : Node} (hq : root.lookup q = some v) (hqp : pathLe q p = false) :
    r.lookup q = some v := by
  rcases mkdir_p_ok_cases h with hmd | ⟨rfl, _⟩
  · exact makedirs_exact hmd hq hqp
  · exact hq

theorem mkdir_p_none_pres {denied : List Path} {root : Node} {p : Path}
    {r : Node} (h : (mkdir_p denied root p).res = .ok r) {q : Path}
    (hq : root.lookup q = none) (hqp : pathLe q p = false) :
    r.lookup q = none := by
  rcases mkdir_p_ok_cases h with hmd | ⟨rfl, _⟩
  · exact makedirs_none_pres hmd hq hqp
  · exact hq

theorem mkdir_p_error_no_enoent {denied : List Path} {root : Node} {p : Path}
    {e : Errno} (h : (mkdir_p denied root p).res = .error e) :
    ∀ q, e ≠ .ENOENT q := by
  unfold mkdir_p at h
  cases hmd : makedirs denied root p with
  | ok r2 => rw [hmd] at h; simp at h
  | error e0 =>
    rw [hmd] at h
    simp only at h
    cases hee : e0.isEEXIST with
    | true => rw [hee] at h; simp at h
    | false =>
      rw [hee] at h
      simp only [Bool.false_eq_true, if_false] at h
      cases h
      exact makedirs_no_enoent hmd

/-! ### copyfile lemmas -/

theorem copyfile_ok {root : Node} {src dst : Path} {r : Node}
    (h : copyfile root src dst = .ok r) :
    ∃ bs, root.lookup src = some (.file bs) ∧
      (∃ cs, root.lookup dst.dropLast = some (.dir cs)) ∧
      (∀ cs, root.lookup dst ≠ some (.dir cs)) ∧
      r = root.update dst (.file bs) := by
  unfold copyfile at h
  by_cases hsame : (src = dst && pathExists root src) = true
  · rw [if_pos hsame] at h; exact Except.noConfusion h
  · rw [if_neg hsame] at h
    cases hsrc : root.lookup src with
    | none => rw [hsrc] at h; exact Except.noConfusion h
    | some v =>
      rw [hsrc] at h
      cases v with
      | dir cs => exact Except.noConfusion h
      | file bs =>
        refine ⟨bs, rfl, ?_⟩
        cases hdst : root.lookup dst with
        | some w =>
          rw [hdst] at h
          cases w with
          | dir cs => exact Except.noConfusion h
          | file s2 =>
            cases hpar : root.lookup dst.dropLast with
            | none => rw [hpar] at h; exact Except.noConfusion h
            | some u =>
              rw [hpar] at h
              cases u with
              | file s3 => exact Except.noConfusion h
              | dir cs =>
                cases h
                refine ⟨⟨cs, rfl⟩, ?_, rfl⟩
                intro cs2 hh
                simp at hh
        | none =>
          rw [hdst] at h
          cases hpar : root.lookup dst.dropLast with
          | none => rw [hpar] at h; exact Except.noConfusion h
          | some u =>
            rw [hpar] at h
            cases u with
            | file s3 => exact Except.noConfusion h
            | dir cs =>
              cases h
              refine ⟨⟨cs, rfl⟩, ?_, rfl⟩
              intro cs2 hh
              simp at hh

theorem copyfile_dst_ne_nil {root : Node} {src dst : Path} {r : Node}
    (h : copyfile root src dst = .ok r) : dst ≠ [] := by
  intro hd
  subst hd
  obtain ⟨bs, hsrc, ⟨cs, hpar⟩, hnd, rfl⟩ := copyfile_ok h
  simp only [List.dropLast_nil] at hpar
  exact hnd cs hpar

theorem copyfile_file_created {root : Node} {src dst : Path} {r : Node}
    (h : copyfile root src dst = .ok r) :
    ∃ bs, root.lookup src = some (.file bs) ∧ r.lookup dst = some (.file bs) := by
  obtain ⟨bs, hsrc, ⟨cs, hpar⟩, hnd, rfl⟩ := copyfile_ok h
  have hd : dst ≠ [] := copyfile_dst_ne_nil h
  refine ⟨bs, hsrc, ?_⟩
  have hsplit := List.dropLast_append_getLast hd
  calc (root.update dst (.file bs)).lookup dst
      = (root.update (dst.dropLast ++ [dst.getLast hd]) (.file bs)).lookup
          ((dst.dropLast ++ [dst.getLast hd]) ++ []) := by
        rw [hsplit, List.append_nil]
    _ = (Node.file bs).lookup [] := lookup_update_concat hpar _ _ _
    _ = some (.file bs) := rfl

theorem copyfile_file_pres {root : Node} {src dst : Path} {r : Node}
    (h : copyfile root src dst = .ok r) {q : Path} {bs : String}
    (hq : root.lookup q = some (.file bs)) (hple : pathLe dst q = false) :
    r.lookup q = some (.file bs) := by
  obtain ⟨bs2, _, _, _, rfl⟩ := copyfile_ok h
  exact lookup_update_file hq hple _

theorem copyfile_file_rev {root : Node} {src dst : Path} {r : Node}
    (h : copyfile root src dst = .ok r) {q : Path} {bs : String}
    (hq : r.lookup q = some (.file bs)) (hple : pathLe dst q = false) :
    root.lookup q = some (.file bs) := by
  obtain ⟨bs2, _, _, _, rfl⟩ := copyfile_ok h
  exact lookup_update_file_rev hq hple

theorem copyfile_exists_pres {root : Node} {src dst : Path} {r : Node}
    (h : copyfile root src dst = .ok r) {q : Path}
    (hq : pathExists root q = true) : pathExists r q = true := by
  obtain ⟨bs, hsrc, ⟨cs, hpar⟩, hnd, rfl⟩ := copyfile_ok h
  cases hple : pathLe dst q with
  | false => exact pathExists_update hq hple _
  | true =>
    obtain ⟨rest, rfl⟩ := pathLe_iff.mp hple
    cases rest with
    | nil =>
      rw [pathExists_true_iff]
      rw [List.append_nil]
      obtain ⟨_, _, hcreated⟩ := copyfile_file_created h
      exact ⟨_, hcreated⟩
    | cons c rest2 =>
      exfalso
      obtain ⟨v, hv⟩ := pathExists_true_iff.mp hq
      rw [Node.lookup_append] at hv
      cases hdst : root.lookup dst with
      | none => rw [hdst] at hv; exact Option.noConfusion hv
      | some w =>
        rw [hdst] at hv
        cases w with
        | dir cs2 => exact hnd cs2 hdst
        | file s2 => simp [Node.lookup] at hv

theorem copyfile_exact {root : Node} {src dst : Path} {r : Node}
    (h : copyfile root src dst = .ok r) {q : Path} {v : Node}
    (hq : root.lookup q = some v) (h1 : pathLe dst q = false)
    (h2 : pathLe q dst = false) : r.lookup q = some v := by
  obtain ⟨bs, _, _, _, rfl⟩ := copyfile_ok h
  rw [lookup_update_diverge h1 h2]
  exact hq

theorem copyfile_none_pres {root : Node} {src dst : Path} {r : Node}
    (h : copyfile root src dst = .ok r) {q : Path}
    (hq : root.lookup q = none) (h1 : pathLe dst q = false)
    (h2 : pathLe q dst = false) : r.lookup q = none := by
  obtain ⟨bs, _, _, _, rfl⟩ := copyfile_ok h
  rw [lookup_update_diverge h1 h2]
  exact hq

/-- With the destination's parent present, any ENOENT from `copyfile` names
the missing source. -/
theorem copyfile_enoent {root : Node} {src dst : Path} {p : Path}
    (hpar : pathExists root dst.dropLast = true)
    (h : copyfile root src dst = .error (.ENOENT p)) : p = src := by
  unfold copyfile at h
  by_cases hsame : (src = dst && pathExists root src) = true
  · rw [if_pos hsame] at h
    cases h
  · rw [if_neg hsame] at h
    cases hsrc : root.lookup src with
    | none =>
      rw [hsrc] at h
      cases h
      rfl
    | some v =>
      rw [hsrc] at h
      cases v with
      | dir cs => cases h
      | file bs =>
        obtain ⟨u, hu⟩ := pathExists_true_iff.mp hpar
        cases hdst : root.lookup dst with
        | some w =>
          rw [hdst] at h
          cases w with
          | dir cs => cases h
          | file s2 =>
            rw [hu] at h
            cases u with
            | dir cs => exact Except.noConfusion h
            | file s3 => cases h
        | none =>
          rw [hdst] at h
          rw [hu] at h
          cases u with
          | dir cs => exact Except.noConfusion h
          | file s3 => cases h

/-! ### Out and copyChildren plumbing -/

theorem Out.bind_res_ok {o : Out} {f : Node → Out} {r : Node}
    (h : (o.bind f).res = .ok r) :
    ∃ m, o.res = .ok m ∧ (f m).res = .ok r := by
  unfold Out.bind at h
  cases ho : o.res with
  | ok m => rw [ho] at h; exact ⟨m, rfl, h⟩
  | error e => rw [ho] at h; simp only at h; exact Except.noConfusion h

theorem Out.bind_res_error {o : Out} {f : Node → Out} {e : Errno}
    (h : (o.bind f).res = .error e) :
    o.res = .error e ∨ ∃ m, o.res = .ok m ∧ (f m).res = .error e := by
  unfold Out.bind at h
  cases ho : o.res with
  | ok m => rw [ho] at h; exact Or.inr ⟨m, rfl, h⟩
  | error e2 =>
    rw [ho] at h
    simp only at h
    injection h with h2
    subst h2
    exact Or.inl rfl

theorem exceptMatchId (x : Except Errno Node) :
    (match x with
     | Except.ok r => Except.ok (ε := Errno) r
     | Except.error e => Except.error e) = x := by
  cases x <;> rfl

/-- Invariant preservation through the child-copy loop. -/
theorem copyChildren_inv {step : Node → String → Out} (P : Node → Prop) :
    ∀ (names : List String) (root fs' : Node),
      (∀ r m r2, m ∈ names → (step r m).res = .ok r2 → P r → P r2) →
      (copyChildren step names root).res = .ok fs' → P root → P fs' := by
  intro names
  induction names with
  | nil =>
    intro root fs' _ h hp
    simp only [copyChildren] at h
    cases h
    exact hp
  | cons m ms ih =>
    intro root fs' hstep h hp
    simp only [copyChildren] at h
    obtain ⟨rA, hA, hrest⟩ := Out.bind_res_ok h
    exact ih rA fs'
      (fun r m2 r2 hm2 => hstep r m2 r2 (List.mem_cons_of_mem _ hm2))
      hrest (hstep root m rA (List.mem_cons_self _ _) hA hp)

/-- An error of the child-copy loop comes from one of the child copies,
run from a tree reachable by earlier successful copies. -/
theorem copyChildren_error {step : Node → String → Out} (P : Node → Prop) :
    ∀ (names : List String) (root : Node) (e : Errno),
      (∀ r m r2, m ∈ names → (step r m).res = .ok r2 → P r → P r2) →
      (copyChildren step names root).res = .error e → P root →
      ∃ m r, m ∈ names ∧ P r ∧ (step r m).res = .error e := by
  intro names
  induction names with
  | nil =>
    intro root e _ h _
    simp only [copyChildren] at h
    exact Except.noConfusion h
  | cons m ms ih =>
    intro root e hstep h hp
    simp only [copyChildren] at h
    rcases Out.bind_res_error h with hh | ⟨rA, hA, hrest⟩
    · exact ⟨m, root, List.mem_cons_self _ _, hp, hh⟩
    · obtain ⟨m2, r2, hm2, hp2, he2⟩ := ih rA e
        (fun r m3 r3 hm3 => hstep r m3 r3 (List.mem_cons_of_mem _ hm3))
        hrest (hstep root m rA (List.mem_cons_self _ _) hA hp)
      exact ⟨m2, r2, List.mem_cons_of_mem _ hm2, hp2, he2⟩

/-! ### copytree lemmas -/

theorem copytree_zero (denied : List Path) (root : Node) (src dst : Path) :
    copytree denied 0 root src dst = ⟨[], .error .nofuel⟩ := rfl

theorem copytree_succ_dir {root : Node} {src : Path}
    (hdir : isdir root src = true) (denied : List Path) (fuel : Nat)
    (dst : Path) :
    copytree denied (fuel + 1) root src dst =
      (if pathExists root dst then ⟨[], .ok root⟩ else mkdir_p denied root dst).bind
        (fun r1 =>
          copyChildren
            (fun r n => copytree denied fuel r (src ++ [n]) (dst ++ [n]))
            (listdir r1 src) r1) := by
  simp only [copytree]
  rw [if_pos hdir]

theorem copytree_succ_file {root : Node} {src : Path}
    (hdir : isdir root src = false) (denied : List Path) (fuel : Nat)
    (dst : Path) :
    copytree denied (fuel + 1) root src dst =
      ⟨["COPY: " ++ pathStr dst], copyfile root src dst⟩ := by
  simp only [copytree]
  rw [if_neg (by rw [hdir]; exact Bool.noConfusion)]
  exact congrArg (Out.mk _) (exceptMatchId _)

theorem isdir_iff {n : Node} {p : Path} :
    isdir n p = true ↔ ∃ cs, n.lookup p = some (.dir cs) := by
  unfold isdir
  cases h : n.lookup p with
  | none => simp
  | some v => cases v <;> simp

theorem listdir_eq {n : Node} {p : Path} {cs : List (String × Node)}
    (h : n.lookup p = some (.dir cs)) : listdir n p = cs.map Prod.fst := by
  unfold listdir
  rw [h]

theorem pathLe_of_snoc_le {p : Path} {n : String} {q : Path}
    (h : pathLe (p ++ [n]) q = true) : pathLe p q = true :=
  pathLe_trans (pathLe_append p [n]) h

theorem pathLe_snoc_both {src dst : Path} {n : String}
    (h : pathLe (src ++ [n]) (dst ++ [n]) = true) : pathLe src dst = true := by
  obtain ⟨u, hu⟩ := pathLe_iff.mp h
  rcases List.eq_nil_or_concat u with rfl | ⟨u2, x, rfl⟩
  · rw [List.append_nil] at hu
    have hd := congrArg List.dropLast hu
    rw [List.dropLast_concat, List.dropLast_concat] at hd
    rw [hd]
    exact pathLe_refl _
  · have hu2 : dst ++ [n] = (src ++ [n] ++ u2) ++ [x] := by
      rw [hu]
      simp [List.concat_eq_append, List.append_assoc]
    have hd := congrArg List.dropLast hu2
    rw [List.dropLast_concat, List.dropLast_concat] at hd
    exact pathLe_iff.mpr ⟨[n] ++ u2, by rw [hd, List.append_assoc]⟩

theorem pathLe_not_into {src dst : Path} (rel : Path)
    (h1 : pathLe dst src = false) (h2 : pathLe src dst = false) :
    pathLe dst (src ++ rel) = false := by
  cases hc : pathLe dst (src ++ rel) with
  | false => rfl
  | true =>
    rcases pathLe_comparable hc (pathLe_append src rel) with hh | hh
    · rw [hh] at h1; exact Bool.noConfusion h1
    · rw [hh] at h2; exact Bool.noConfusion h2

/-- Files outside the destination subtree survive a successful recursive
copy unchanged. -/
theorem copytree_file_pres {denied : List Path} :
    ∀ (fuel : Nat) (root : Node) (src dst : Path) (fs' : Node),
      (copytree denied fuel root src dst).res = .ok fs' →
      ∀ q bs, root.lookup q = some (.file bs) → pathLe dst q = false →
        fs'.lookup q = some (.file bs) := by
  intro fuel
  induction fuel with
  | zero =>
    intro root src dst fs' h
    rw [copytree_zero] at h
    exact absurd h (by simp)
  | succ fuel ih =>
    intro root src dst fs' h q bs hq hple
    cases hdir : isdir root src with
    | true =>
      rw [copytree_succ_dir hdir] at h
      obtain ⟨r1, h1, h2⟩ := Out.bind_res_ok h
      have hr1 : r1.lookup q = some (.file bs) := by
        by_cases hex : pathExists root dst = true
        · rw [if_pos hex] at h1
          injection h1 with hh
          rw [← hh]
          exact hq
        · rw [if_neg hex] at h1
          exact mkdir_p_file_pres h1 hq
      refine copyChildren_inv (fun r => r.lookup q = some (.file bs)) _ r1 fs'
        ?_ h2 hr1
      intro r m r2 _ hstep hp
      refine ih r (src ++ [m]) (dst ++ [m]) r2 hstep q bs hp ?_
      cases hc : pathLe (dst ++ [m]) q with
      | false => rfl
      | true => rw [pathLe_of_snoc_le hc] at hple; exact Bool.noConfusion hple
    | false =>
      rw [copytree_succ_file hdir] at h
      exact copyfile_file_pres h hq hple

/-- Existing paths survive a successful recursive copy. -/
theorem copytree_exists_pres {denied : List Path} :
    ∀ (fuel : Nat) (root : Node) (src dst : Path) (fs' : Node),
      (copytree denied fuel root src dst).res = .ok fs' →
      ∀ q, pathExists root q = true → pathExists fs' q = true := by
  intro fuel
  induction fuel with
  | zero =>
    intro root src dst fs' h
    rw [copytree_zero] at h
    exact absurd h (by simp)
  | succ fuel ih =>
    intro root src dst fs' h q hq
    cases hdir : isdir root src with
    | true =>
      rw [copytree_succ_dir hdir] at h
      obtain ⟨r1, h1, h2⟩ := Out.bind_res_ok h
      have hr1 : pathExists r1 q = true := by
        by_cases hex : pathExists root dst = true
        · rw [if_pos hex] at h1
          injection h1 with hh
          rw [← hh]
          exact hq
        · rw [if_neg hex] at h1
          exact mkdir_p_exists_pres h1 hq
      refine copyChildren_inv (fun r => pathExists r q = true) _ r1 fs'
        ?_ h2 hr1
      intro r m r2 _ hstep hp
      exact ih r (src ++ [m]) (dst ++ [m]) r2 hstep q hp
    | false =>
      rw [copytree_succ_file hdir] at h
      exact copyfile_exists_pres h hq

/-- A file outside the destination subtree present after a successful
recursive copy was already present before it. -/
theorem copytree_file_rev {denied : List Path} :
    ∀ (fuel : Nat) (root : Node) (src dst : Path) (fs' : Node),
      (copytree denied fuel root src dst).res = .ok fs' →
      ∀ q bs, fs'.lookup q = some (.file bs) → pathLe dst q = false →
        root.lookup q = some (.file bs) := by
  intro fuel
  induction fuel with
  | zero =>
    intro root src dst fs' h
    rw [copytree_zero] at h
    exact absurd h (by simp)
  | succ fuel ih =>
    intro root src dst fs' h q bs hq hple
    cases hdir : isdir root src with
    | true =>
      rw [copytree_succ_dir hdir] at h
      obtain ⟨r1, h1, h2⟩ := Out.bind_res_ok h
      have hloop : r1.lookup q = some (.file bs) := by
        have hstepprop : ∀ r m r2, m ∈ listdir r1 src →
            ((fun r n => copytree denied fuel r (src ++ [n]) (dst ++ [n])) r m).res
              = .ok r2 →
            (r.lookup q = some (.file bs) → r1.lookup q = some (.file bs)) →
            (r2.lookup q = some (.file bs) → r1.lookup q = some (.file bs)) := by
          intro r m r2 _ hstep hp hr2
          refine hp (ih r (src ++ [m]) (dst ++ [m]) r2 hstep q bs hr2 ?_)
          cases hc : pathLe (dst ++ [m]) q with
          | false => rfl
          | true => rw [pathLe_of_snoc_le hc] at hple; exact Bool.noConfusion hple
        exact copyChildren_inv
          (fun r => r.lookup q = some (.file bs) → r1.lookup q = some (.file bs))
          _ r1 fs' hstepprop h2 (fun hh => hh) hq
      by_cases hex : pathExists root dst = true
      · rw [if_pos hex] at h1
        injection h1 with hh
        rw [hh]
        exact hloop
      · rw [if_neg hex] at h1
        exact mkdir_p_file_rev h1 hloop
    | false =>
      rw [copytree_succ_file hdir] at h
      exact copyfile_file_rev h hq hple

/-- Paths outside both the destination subtree and its ancestor chain that
were absent stay absent through a successful recursive copy. -/
theorem copytree_none_pres {denied : List Path} :
    ∀ (fuel : Nat) (root : Node) (src dst : Path) (fs' : Node),
      (copytree denied fuel root src dst).res = .ok fs' →
      ∀ q, root.lookup q = none → pathLe dst q = false →
        pathLe q dst = false → fs'.lookup q = none := by
  intro fuel
  induction fuel with
  | zero =>
    intro root src dst fs' h
    rw [copytree_zero] at h
    exact absurd h (by simp)
  | succ fuel ih =>
    intro root src dst fs' h q hq h1 h2
    cases hdir : isdir root src with
    | true =>
      rw [copytree_succ_dir hdir] at h
      obtain ⟨r1, hs1, hs2⟩ := Out.bind_res_ok h
      have hr1 : r1.lookup q = none := by
        by_cases hex : pathExists root dst = true
        · rw [if_pos hex] at hs1
          injection hs1 with hh
          rw [← hh]
          exact hq
        · rw [if_neg hex] at hs1
          exact mkdir_p_none_pres hs1 hq h2
      refine copyChildren_inv (fun r => r.lookup q = none) _ r1 fs' ?_ hs2 hr1
      intro r m r2 _ hstep hp
      refine ih r (src ++ [m]) (dst ++ [m]) r2 hstep q hp ?_ ?_
      · cases hc : pathLe (dst ++ [m]) q with
        | false => rfl
        | true => rw [pathLe_of_snoc_le hc] at h1; exact Bool.noConfusion h1
      · cases hc : pathLe q (dst ++ [m]) with
        | false => rfl
        | true =>
          rcases pathLe_comparable hc (pathLe_append dst [m]) with hh | hh
          · rw [hh] at h2; exact Bool.noConfusion h2
          · rw [hh] at h1; exact Bool.noConfusion h1
    | false =>
      rw [copytree_succ_file hdir] at h
      exact copyfile_none_pres h hq h1 h2

/-- When the destination's parent exists, every ENOENT a recursive copy
raises names a path inside the source subtree (a missing source), never a
missing destination parent: destination directories are created before
anything is placed inside them. -/
theorem copytree_enoent_src {denied : List Path} :
    ∀ (fuel : Nat) (root : Node) (src dst : Path) (p : Path),
      pathExists root dst.dropLast = true →
      (copytree denied fuel root src dst).res = .error (.ENOENT p) →
      pathLe src p = true := by
  intro fuel
  induction fuel with
  | zero =>
    intro root src dst p _ h
    rw [copytree_zero] at h
    simp at h
  | succ fuel ih =>
    intro root src dst p hpar h
    cases hdir : isdir root src with
    | true =>
      rw [copytree_succ_dir hdir] at h
      rcases Out.bind_res_error h with h1 | ⟨r1, h1, h2⟩
      · by_cases hex : pathExists root dst = true
        · rw [if_pos hex] at h1
          exact absurd h1 (by simp)
        · rw [if_neg hex] at h1
          exact absurd rfl (mkdir_p_error_no_enoent h1 p)
      · have hdst1 : pathExists r1 dst = true := by
          by_cases hex : pathExists root dst = true
          · rw [if_pos hex] at h1
            injection h1 with hh
            rw [← hh]
            exact hex
          · rw [if_neg hex] at h1
            exact mkdir_p_exists_after h1
        have hmono : ∀ r m2 r2, m2 ∈ listdir r1 src →
            ((fun r n => copytree denied fuel r (src ++ [n]) (dst ++ [n])) r m2).res
              = .ok r2 →
            pathExists r dst = true → pathExists r2 dst = true := by
          intro r m2 r2 _ hstep hp
          exact copytree_exists_pres fuel r (src ++ [m2]) (dst ++ [m2]) r2
            hstep dst hp
        obtain ⟨m, rr, _, hP, herr⟩ := copyChildren_error
          (fun r => pathExists r dst = true) _ r1 _ hmono h2 hdst1
        have hstep := ih rr (src ++ [m]) (dst ++ [m]) p
          (by rw [List.dropLast_concat]; exact hP) herr
        exact pathLe_of_snoc_le hstep
    | false =>
      rw [copytree_succ_file hdir] at h
      rw [copyfile_enoent hpar h]
      exact pathLe_refl src

/-- The child-copy loop delivers the copy of a listed child: if the child's
source file is present when the loop starts, its destination counterpart is
present when the loop ends. -/
theorem copyChildren_copies {step : Node → String → Out} (n : String)
    (qsrc qdst : Path) (bs : String) :
    ∀ (names : List String) (r0 fs' : Node),
      (copyChildren step names r0).res = .ok fs' →
      n ∈ names →
      r0.lookup qsrc = some (.file bs) →
      (∀ r r2, (step r n).res = .ok r2 → r.lookup qsrc = some (.file bs) →
        r2.lookup qdst = some (.file bs)) →
      (∀ m r r2, m ∈ names → (step r m).res = .ok r2 →
        r.lookup qsrc = some (.file bs) → r2.lookup qsrc = some (.file bs)) →
      (∀ m r r2, m ∈ names → m ≠ n → (step r m).res = .ok r2 →
        r.lookup qdst = some (.file bs) → r2.lookup qdst = some (.file bs)) →
      fs'.lookup qdst = some (.file bs) := by
  intro names
  induction names with
  | nil =>
    intro r0 fs' _ hn
    simp at hn
  | cons m ms ih =>
    intro r0 fs' h hn hsrc H1 H2 H3
    simp only [copyChildren] at h
    obtain ⟨rA, hA, hrest⟩ := Out.bind_res_ok h
    by_cases hm : n ∈ ms
    · refine ih rA fs' hrest hm
        (H2 m r0 rA (List.mem_cons_self _ _) hA hsrc)
        H1
        (fun m2 r r2 hm2 => H2 m2 r r2 (List.mem_cons_of_mem _ hm2))
        (fun m2 r r2 hm2 => H3 m2 r r2 (List.mem_cons_of_mem _ hm2))
    · have hmn : m = n := by
        rcases List.mem_cons.mp hn with hh | hh
        · exact hh.symm
        · exact absurd hh hm
      subst hmn
      have hdstA : rA.lookup qdst = some (.file bs) := H1 r0 rA hA hsrc
      refine copyChildren_inv (fun r => r.lookup qdst = some (.file bs))
        ms rA fs' ?_ hrest hdstA
      intro r m2 r2 hm2 hstep hp
      refine H3 m2 r r2 (List.mem_cons_of_mem _ hm2) ?_ hstep hp
      intro hh
      subst hh
      exact hm hm2

/-- Structure preservation of the recursive copy: any file present under
the source tree before the copy has an identical counterpart under the
destination tree after it (source and destination disjoint). -/
theorem copytree_copies {denied : List Path} :
    ∀ (fuel : Nat) (root : Node) (src dst : Path) (fs' : Node),
      pathLe src dst = false → pathLe dst src = false →
      (copytree denied fuel root src dst).res = .ok fs' →
      ∀ rel bs, root.lookup (src ++ rel) = some (.file bs) →
        fs'.lookup (dst ++ rel) = some (.file bs) := by
  intro fuel
  induction fuel with
  | zero =>
    intro root src dst fs' _ _ h
    rw [copytree_zero] at h
    exact absurd h (by simp)
  | succ fuel ih =>
    intro root src dst fs' hsd hds h rel bs hrel
    cases hdir : isdir root src with
    | false =>
      rw [copytree_succ_file hdir] at h
      cases rel with
      | cons c rel2 =>
        obtain ⟨cs, hcs⟩ := lookup_dir_of_append hrel
        rw [isdir_iff.mpr ⟨cs, hcs⟩] at hdir
        exact Bool.noConfusion hdir
      | nil =>
        rw [List.append_nil] at hrel ⊢
        obtain ⟨bs2, hsrc2, hdst2⟩ := copyfile_file_created h
        rw [hrel] at hsrc2
        injection hsrc2 with hh
        cases hh
        exact hdst2
    | true =>
      obtain ⟨cs, hcs⟩ := isdir_iff.mp hdir
      cases rel with
      | nil =>
        rw [List.append_nil, hcs] at hrel
        exact absurd hrel (by simp)
      | cons n rel2 =>
        rw [copytree_succ_dir hdir] at h
        obtain ⟨r1, h1, h2⟩ := Out.bind_res_ok h
        have hq_not_under_dst : pathLe dst (src ++ n :: rel2) = false :=
          pathLe_not_into _ hds hsd
        have hsrc1 : r1.lookup (src ++ n :: rel2) = some (.file bs) := by
          by_cases hex : pathExists root dst = true
          · rw [if_pos hex] at h1
            injection h1 with hh
            rw [← hh]
            exact hrel
          · rw [if_neg hex] at h1
            exact mkdir_p_exact h1 hrel (by
              cases hc : pathLe (src ++ n :: rel2) dst with
              | false => rfl
              | true =>
                rw [pathLe_trans (pathLe_append src (n :: rel2)) hc] at hsd
                exact Bool.noConfusion hsd)
        have hcs1 : r1.lookup src = some (.dir cs) := by
          by_cases hex : pathExists root dst = true
          · rw [if_pos hex] at h1
            injection h1 with hh
            rw [← hh]
            exact hcs
          · rw [if_neg hex] at h1
            exact mkdir_p_exact h1 hcs hsd
        have hnames : listdir r1 src = cs.map Prod.fst := listdir_eq hcs1
        have hmem : n ∈ listdir r1 src := by
          rw [hnames]
          have := hsrc1
          rw [Node.lookup_append, hcs1, Option.some_bind, dirLookup] at this
          cases hfc : findChild cs n with
          | none => rw [hfc] at this; simp at this
          | some m0 => exact mem_of_findChild hfc
        have hdisj2 : pathLe (src ++ [n]) (dst ++ [n]) = false ∧
            pathLe (dst ++ [n]) (src ++ [n]) = false := by
          constructor
          · cases hc : pathLe (src ++ [n]) (dst ++ [n]) with
            | false => rfl
            | true => rw [pathLe_snoc_both hc] at hsd; exact Bool.noConfusion hsd
          · cases hc : pathLe (dst ++ [n]) (src ++ [n]) with
            | false => rfl
            | true => rw [pathLe_snoc_both hc] at hds; exact Bool.noConfusion hds
        have happ : ∀ (p : Path) (z : Path), (p ++ [n]) ++ z = p ++ n :: z := by
          intro p z
          rw [List.append_assoc]
          rfl
        refine copyChildren_copies n (src ++ n :: rel2) (dst ++ n :: rel2) bs
          (listdir r1 src) r1 fs' h2 hmem hsrc1 ?_ ?_ ?_
        · intro r r2 hstep hq
          have := ih r (src ++ [n]) (dst ++ [n]) r2 hdisj2.1 hdisj2.2 hstep rel2
            bs (by rw [happ src rel2]; exact hq)
          rw [happ dst rel2] at this
          exact this
        · intro m r r2 _ hstep hq
          refine copytree_file_pres fuel r (src ++ [m]) (dst ++ [m]) r2 hstep
            _ bs hq ?_
          cases hc : pathLe (dst ++ [m]) (src ++ n :: rel2) with
          | false => rfl
          | true =>
            rw [pathLe_of_snoc_le hc] at hq_not_under_dst
            exact Bool.noConfusion hq_not_under_dst
        · intro m r r2 _ hmn hstep hq
          refine copytree_file_pres fuel r (src ++ [m]) (dst ++ [m]) r2 hstep
            _ bs hq ?_
          exact pathLe_cons_ne hmn

/-! ### Scaffolding lemmas (full-profile collection subdirectories) -/

theorem scaffoldOne_inv {denied : List Path} {cb : Path} (P : Node → Prop) :
    ∀ (subs : List Path) (root r : Node),
      (∀ rr sub r2, sub ∈ subs → (mkdir_p denied rr (cb ++ sub)).res = .ok r2 →
        P rr → P r2) →
      (scaffoldOne denied cb subs root).res = .ok r → P root → P r := by
  intro subs
  induction subs with
  | nil =>
    intro root r _ h hp
    simp only [scaffoldOne] at h
    cases h
    exact hp
  | cons sub subs ih =>
    intro root r hstep h hp
    simp only [scaffoldOne] at h
    obtain ⟨rA, hA, hrest⟩ := Out.bind_res_ok h
    exact ih rA r
      (fun rr s r2 hs => hstep rr s r2 (List.mem_cons_of_mem _ hs))
      hrest (hstep root sub rA (List.mem_cons_self _ _) hA hp)

theorem scaffoldOne_exists {denied : List Path} {cb : Path} :
    ∀ (subs : List Path) (root r : Node),
      (scaffoldOne denied cb subs root).res = .ok r →
      ∀ sub, sub ∈ subs → pathExists r (cb ++ sub) = true := by
  intro subs
  induction subs with
  | nil =>
    intro root r _ sub hs
    simp at hs
  | cons sub0 subs ih =>
    intro root r h sub hs
    simp only [scaffoldOne] at h
    obtain ⟨rA, hA, hrest⟩ := Out.bind_res_ok h
    rcases List.mem_cons.mp hs with rfl | hs2
    · refine scaffoldOne_inv (fun rr => pathExists rr (cb ++ sub) = true)
        subs rA r ?_ hrest (mkdir_p_exists_after hA)
      intro rr s r2 _ hstep hp
      exact mkdir_p_exists_pres hstep hp
    · exact ih rA r hrest sub hs2

theorem scaffoldOne_file_rev {denied : List Path} {cb : Path}
    {subs : List Path} {root r : Node}
    (h : (scaffoldOne denied cb subs root).res = .ok r) {q : Path}
    {bs : String} (hq : r.lookup q = some (.file bs)) :
    root.lookup q = some (.file bs) := by
  refine scaffoldOne_inv
    (fun rr => rr.lookup q = some (.file bs) → root.lookup q = some (.file bs))
    subs root r ?_ h (fun hh => hh) hq
  intro rr s r2 _ hstep hp hr2
  exact hp (mkdir_p_file_rev hstep hr2)

theorem scaffoldOne_exists_pres {denied : List Path} {cb : Path}
    {subs : List Path} {root r : Node}
    (h : (scaffoldOne denied cb subs root).res = .ok r) {q : Path}
    (hq : pathExists root q = true) : pathExists r q = true := by
  refine scaffoldOne_inv (fun rr => pathExists rr q = true) subs root r ?_ h hq
  intro rr s r2 _ hstep hp
  exact mkdir_p_exists_pres hstep hp

theorem scaffoldOne_none_pres {denied : List Path} {cb : Path}
    {subs : List Path} {root r : Node}
    (h : (scaffoldOne denied cb subs root).res = .ok r) {q : Path}
    (hq : root.lookup q = none)
    (hguard : ∀ sub, sub ∈ subs → pathLe q (cb ++ sub) = false) :
    r.lookup q = none := by
  refine scaffoldOne_inv (fun rr => rr.lookup q = none) subs root r ?_ h hq
  intro rr s r2 hs hstep hp
  exact mkdir_p_none_pres hstep hp (hguard s hs)

theorem scaffoldLoop_inv {denied : List Path} {out : Path} (P : Node → Prop) :
    ∀ (ds : List String) (root r : Node),
      (∀ rr d r2, d ∈ ds → startsWithUnderscore d = false →
        (scaffoldOne denied (out ++ ["collections", d]) dirsToCreate rr).res
          = .ok r2 → P rr → P r2) →
      (scaffoldLoop denied out ds root).res = .ok r → P root → P r := by
  intro ds
  induction ds with
  | nil =>
    intro root r _ h hp
    simp only [scaffoldLoop] at h
    cases h
    exact hp
  | cons d ds ih =>
    intro root r hstep h hp
    simp only [scaffoldLoop] at h
    obtain ⟨rA, hA, hrest⟩ := Out.bind_res_ok h
    have hPA : P rA := by
      cases hs : startsWithUnderscore d with
      | true =>
        rw [hs] at hA
        simp only [Bool.not_true, Bool.false_eq_true, if_false] at hA
        injection hA with hh
        rw [← hh]
        exact hp
      | false =>
        rw [hs] at hA
        simp only [Bool.not_false, if_true] at hA
        exact hstep root d rA (List.mem_cons_self _ _) hs hA hp
    exact ih rA r
      (fun rr d2 r2 hd2 => hstep rr d2 r2 (List.mem_cons_of_mem _ hd2))
      hrest hPA

theorem scaffoldLoop_qualifying {denied : List Path} {out : Path} :
    ∀ (ds : List String) (root r : Node),
      (scaffoldLoop denied out ds root).res = .ok r →
      ∀ d, d ∈ ds → startsWithUnderscore d = false →
      ∀ sub, sub ∈ dirsToCreate →
        pathExists r (out ++ ["collections", d] ++ sub) = true := by
  intro ds
  induction ds with
  | nil =>
    intro root r _ d hd
    simp at hd
  | cons d0 ds ih =>
    intro root r h d hd hstart sub hsub
    simp only [scaffoldLoop] at h
    obtain ⟨rA, hA, hrest⟩ := Out.bind_res_ok h
    by_cases hdds : d ∈ ds
    · exact ih rA r hrest d hdds hstart sub hsub
    · have hdd0 : d = d0 := by
        rcases List.mem_cons.mp hd with hh | hh
        · exact hh
        · exact absurd hh hdds
      subst hdd0
      rw [hstart] at hA
      simp only [Bool.not_false, if_true] at hA
      have hexA : pathExists rA (out ++ ["collections", d] ++ sub) = true :=
        scaffoldOne_exists dirsToCreate root rA hA sub hsub
      refine scaffoldLoop_inv
        (fun rr => pathExists rr (out ++ ["collections", d] ++ sub) = true)
        ds rA r ?_ hrest hexA
      intro rr d2 r2 _ _ hstep hp
      exact scaffoldOne_exists_pres hstep hp

theorem scaffoldLoop_file_rev {denied : List Path} {out : Path}
    {ds : List String} {root r : Node}
    (h : (scaffoldLoop denied out ds root).res = .ok r) {q : Path}
    {bs : String} (hq : r.lookup q = some (.file bs)) :
    root.lookup q = some (.file bs) := by
  refine scaffoldLoop_inv
    (fun rr => rr.lookup q = some (.file bs) → root.lookup q = some (.file bs))
    ds root r ?_ h (fun hh => hh) hq
  intro rr d r2 _ _ hstep hp hr2
  exact hp (scaffoldOne_file_rev hstep hr2)

theorem scaffoldLoop_none_pres {denied : List Path} {out : Path}
    {ds : List String} {root r : Node}
    (h : (scaffoldLoop denied out ds root).res = .ok r) {q : Path}
    (hq : root.lookup q = none)
    (hguard : ∀ d, d ∈ ds → startsWithUnderscore d = false →
      ∀ sub, sub ∈ dirsToCreate →
        pathLe q ((out ++ ["collections", d]) ++ sub) = false) :
    r.lookup q = none := by
  refine scaffoldLoop_inv (fun rr => rr.lookup q = none) ds root r ?_ h hq
  intro rr d r2 hd hds hstep hp
  exact scaffoldOne_none_pres hstep hp (hguard d hd hds)

/-! ### Run-level helpers -/

theorem pathLe_head_ne {x a : String} (h : x ≠ a) (p q : Path) :
    pathLe (x :: p) (a :: q) = false := by
  simp [pathLe, h]

theorem pathLe_append_cons_ne {base : Path} {a x : String} (h : a ≠ x)
    (u v : Path) : pathLe (base ++ a :: u) (base ++ x :: v) = false := by
  cases hc : pathLe (base ++ a :: u) (base ++ x :: v) with
  | false => rfl
  | true =>
    have h2 := pathLe_cancel.mp hc
    rw [pathLe_head_ne h] at h2
    exact Bool.noConfusion h2

theorem lookup_update_other {root : Node} {base : Path} {a : String}
    {u : Path} {m : Node} {x : String} (hax : a ≠ x) (v : Path) :
    (root.update (base ++ a :: u) m).lookup (base ++ x :: v) =
      root.lookup (base ++ x :: v) :=
  lookup_update_diverge (pathLe_append_cons_ne hax u v)
    (pathLe_append_cons_ne (Ne.symm hax) v u)

theorem Out.nil_ok_bind (n : Node) (f : Node → Out) :
    (⟨[], .ok n⟩ : Out).bind f = f n := by
  unfold Out.bind
  simp

theorem outputPath_eq (base : Path) (o : OSChoice) :
    outputPath base o = (base ++ ["Artifacts"]) ++ [osStr o, "RetroFE"] := by
  rw [outputPath, List.append_assoc]
  rfl

theorem outputPath_cons (base : Path) (o : OSChoice) :
    outputPath base o = base ++ "Artifacts" :: [osStr o, "RetroFE"] := rfl

/-- On a tree where the `Artifacts` directory is absent, the output
directory does not exist. -/
theorem output_absent {root : Node} {base : Path} {o : OSChoice}
    (hart : root.lookup (base ++ ["Artifacts"]) = none) :
    pathExists root (outputPath base o) = false := by
  rw [pathExists_false_iff, outputPath_eq]
  exact lookup_none_append hart _

/-- With the base directory present and `Artifacts` absent, the
output-directory creation step builds exactly the fresh
`Artifacts/<os>/RetroFE` chain. -/
theorem ensureOutput_fresh {root : Node} {base : Path} {o : OSChoice}
    {build : String} {clean : Bool} {cs : List (String × Node)}
    (hbase : root.lookup base = some (.dir cs))
    (hart : root.lookup (base ++ ["Artifacts"]) = none)
    (hb : build ≠ "none") :
    ensureOutput [] ⟨o, build, clean⟩ base root =
      .ok (root.update (base ++ ["Artifacts"])
        (nestedDirs [osStr o, "RetroFE"])) := by
  unfold ensureOutput
  simp only
  rw [output_absent hart]
  rw [if_pos (by simp [hb])]
  rw [outputPath_cons]
  exact makedirs_fresh_chain hbase (pathExists_false_iff.mpr hart) _

/-- Looking up the output path after the fresh creation: an empty
directory. -/
theorem fresh_lookup_out {root : Node} {base : Path} {o : OSChoice}
    {cs : List (String × Node)} (hbase : root.lookup base = some (.dir cs)) :
    (root.update (base ++ ["Artifacts"])
        (nestedDirs [osStr o, "RetroFE"])).lookup (outputPath base o) =
      some (.dir []) := by
  rw [outputPath_eq]
  rw [lookup_update_concat hbase "Artifacts" _ [osStr o, "RetroFE"]]
  simp [nestedDirs, dirLookup, findChild, Node.lookup]

/-- Looking up a non-`Artifacts` sibling after the fresh creation is
unchanged. -/
theorem fresh_lookup_other {root : Node} {base : Path} {x : String}
    (hx : x ≠ "Artifacts") (v : Path) (m : Node) :
    (root.update (base ++ ["Artifacts"]) m).lookup (base ++ x :: v) =
      root.lookup (base ++ x :: v) := by
  have : base ++ ["Artifacts"] = base ++ "Artifacts" :: [] := rfl
  rw [this]
  exact lookup_update_other (Ne.symm hx) v

/-- With the output path absent, the clean step does nothing. -/
theorem cleanStep_skip (args : Args) {root : Node} {base : Path}
    (h : pathExists root (outputPath base args.osArg) = false) :
    cleanStep args base root = root := by
  unfold cleanStep
  rw [h]
  simp

/-- Skeleton of a run whose profile copies no assets: the clean step is
skipped (fresh tree), the output chain is created, and control passes to
the executable-placement step. -/
theorem runPackage_fresh_skip {root : Node} {base : Path} {o : OSChoice}
    {build : String} {cs : List (String × Node)} (clean : Bool) (fuel : Nat)
    (hbase : root.lookup base = some (.dir cs))
    (hart : root.lookup (base ++ ["Artifacts"]) = none)
    (hb : build ≠ "none") (hbf : build ≠ "full") (hbl : build ≠ "layout") :
    runPackage [] base o build clean fuel root =
      placeExe [] base o build
        (root.update (base ++ ["Artifacts"]) (nestedDirs [osStr o, "RetroFE"])) := by
  unfold runPackage
  simp only
  rw [cleanStep_skip ⟨o, build, clean⟩ (output_absent hart)]
  rw [ensureOutput_fresh hbase hart hb]
  rw [Out.nil_ok_bind]
  rw [if_neg hbf, if_neg hbl]
  rw [Out.nil_ok_bind]

/-! ### Claim theorems -/

/-- C1: the claim says the output directory is deleted if and only if the
`--clean` flag is set (and the directory exists).  The code instead guards
the deletion with `hasattr(args, 'clean')` (Package.py line 60), which is
true for every argparse result of this parser, so a run WITHOUT `--clean`
also deletes an existing output directory: with `clean := false` and an
existing `Artifacts/windows/RetroFE` containing a file, the clean step
removes the whole output directory, and the full `--build none` run returns
normally with the output tree gone. -/
theorem clean_step_ignores_flag :
    hasattrClean ⟨.windows, "none", false⟩ = true ∧
    (cleanStep ⟨.windows, "none", false⟩ []
        (.dir [("Artifacts", .dir [("windows", .dir [("RetroFE",
          .dir [("old", .file "o")])])])])).lookup
      ["Artifacts", "windows", "RetroFE"] = none ∧
    (runPackage [] [] .windows "none" false 1
        (.dir [("Artifacts", .dir [("windows", .dir [("RetroFE",
          .dir [("old", .file "o")])])])])).res =
      .ok (.dir [("Artifacts", .dir [("windows", .dir [])])]) :=
  ⟨rfl, rfl, rfl⟩

/-- C2 (counterexample): the claim says that any failure of the underlying
directory creation other than "already exists as a directory" — including a
path component that exists as a regular file — raises.  But when the FINAL
path component exists as a regular file, `os.makedirs` fails with errno
EEXIST, which `mkdir_p` swallows: here `a` is a regular file, the underlying
`makedirs` fails with EEXIST, and `mkdir_p` returns success with the tree
unchanged (and `a` still a file, not a directory). -/
theorem mkdir_p_swallows_file_eexist :
    (Node.dir [("a", .file "x")]).lookup ["a"] = some (.file "x") ∧
    makedirs [] (.dir [("a", .file "x")]) ["a"] = .error (.EEXIST ["a"]) ∧
    mkdir_p [] (.dir [("a", .file "x")]) ["a"] =
      ⟨["CREATE: a"], .ok (.dir [("a", .file "x")])⟩ :=
  ⟨rfl, rfl, rfl⟩

/-- C2 (amended): `mkdir_p`'s exemption is by errno, not by node kind: a
path that already exists — as a directory OR as a regular file — makes the
underlying `makedirs` fail with EEXIST, which is swallowed (success, tree
unchanged); every error with an errno other than EEXIST is re-raised and
propagated, in particular ENOTDIR when the parent component is a regular
file and EACCES when permissions deny the creation. -/
theorem mkdir_p_error_policy :
    (∀ (denied : List Path) (root : Node) (p : Path),
      pathExists root p = true →
      mkdir_p denied root p = ⟨["CREATE: " ++ pathStr p], .ok root⟩) ∧
    (∀ (denied : List Path) (root : Node) (p : Path) (e : Errno),
      makedirs denied root p = .error e → e.isEEXIST = false →
      mkdir_p denied root p = ⟨["CREATE: " ++ pathStr p], .error e⟩) ∧
    (∀ (denied : List Path) (root : Node) (p : Path) (s : String),
      root.lookup p.dropLast = some (.file s) → p ≠ [] →
      pathExists root p = false →
      (mkdir_p denied root p).res = .error (.ENOTDIR p)) ∧
    (∀ (denied : List Path) (root : Node) (p : Path)
      (cs : List (String × Node)), p ∈ denied →
      root.lookup p.dropLast = some (.dir cs) → pathExists root p = false →
      (mkdir_p denied root p).res = .error (.EACCES p)) := by
  refine ⟨?_, ?_, ?_, ?_⟩
  · intro denied root p hex
    unfold mkdir_p
    rw [makedirs_exists_eexist hex]
    rfl
  · intro denied root p e h hee
    unfold mkdir_p
    rw [h]
    simp [hee]
  · intro denied root p s hpar hp hex
    have hmd : makedirs denied root p = mkdir denied root p :=
      makedirs_parent (by rw [hpar]; rfl) hp
    have hmk : mkdir denied root p = .error (.ENOTDIR p) := by
      unfold mkdir
      rw [if_neg (by rw [hex]; exact Bool.noConfusion), hpar]
    unfold mkdir_p
    rw [hmd, hmk]
    rfl
  · intro denied root p cs hd hpar hex
    have hp : p ≠ [] := by
      intro hp
      subst hp
      rw [pathExists_nil] at hex
      exact Bool.noConfusion hex
    have hmd : makedirs denied root p = mkdir denied root p :=
      makedirs_parent (by rw [hpar]; rfl) hp
    have hmk : mkdir denied root p = .error (.EACCES p) := by
      unfold mkdir
      rw [if_neg (by rw [hex]; exact Bool.noConfusion), hpar, if_pos hd]
    unfold mkdir_p
    rw [hmd, hmk]
    rfl

theorem mkdir_p_error_policy_witness :
    mkdir_p [] (.dir [("a", .dir [])]) ["a"] =
      ⟨["CREATE: a"], .ok (.dir [("a", .dir [])])⟩ ∧
    mkdir_p [] (.dir [("e", .file "y")]) ["e", "f"] =
      ⟨["CREATE: e/f"], .error (.ENOTDIR ["e", "f"])⟩ ∧
    (mkdir_p [] (.dir [("a", .file "x")]) ["a", "b"]).res =
      .error (.ENOTDIR ["a", "b"]) ∧
    (mkdir_p [["b"]] (.dir []) ["b"]).res = .error (.EACCES ["b"]) :=
  ⟨mkdir_p_error_policy.1 [] (.dir [("a", .dir [])]) ["a"] rfl,
   mkdir_p_error_policy.2.1 [] (.dir [("e", .file "y")]) ["e", "f"]
     (.ENOTDIR ["e", "f"]) rfl rfl,
   mkdir_p_error_policy.2.2.1 [] (.dir [("a", .file "x")]) ["a", "b"] "x"
     rfl (by decide) rfl,
   mkdir_p_error_policy.2.2.2 [["b"]] (.dir []) ["b"] [] (by decide) rfl rfl⟩

/-- C6: `mkdir_p` is idempotent, and its CREATE trace line is printed on
every call, unconditionally (it is the whole of the call's output even when
the path already exists or the call fails): a successful call yields a tree
on which a second identical call succeeds with no further change and the
same single trace line. -/
theorem mkdir_p_idempotent :
    (∀ (denied : List Path) (root : Node) (p : Path),
      (mkdir_p denied root p).trace = ["CREATE: " ++ pathStr p]) ∧
    (∀ (denied : List Path) (root : Node) (p : Path) (r : Node),
      (mkdir_p denied root p).res = .ok r →
      mkdir_p denied r p = ⟨["CREATE: " ++ pathStr p], .ok r⟩) := by
  refine ⟨fun denied root p => rfl, ?_⟩
  intro denied root p r h
  have hex : pathExists r p = true := mkdir_p_exists_after h
  unfold mkdir_p
  rw [makedirs_exists_eexist hex]
  rfl

theorem mkdir_p_idempotent_witness :
    (mkdir_p [] (.dir []) ["a"]).trace = ["CREATE: a"] ∧
    mkdir_p [] (.dir [("a", .dir [])]) ["a"] =
      ⟨["CREATE: a"], .ok (.dir [("a", .dir [])])⟩ :=
  ⟨mkdir_p_idempotent.1 [] (.dir []) ["a"],
   mkdir_p_idempotent.2 [] (.dir []) ["a"] (.dir [("a", .dir [])]) rfl⟩

/-- C3: the recursive copier is structure-preserving: for disjoint source
and destination paths (neither an initial segment of the other), after
`copytree(src, dst)` completes successfully, every file under the source
tree has an identical counterpart under the destination tree — same
relative path, same contents. -/
theorem copytree_structure_preserving {denied : List Path} {fuel : Nat}
    {root : Node} {src dst : Path} {fs' : Node}
    (hsd : pathLe src dst = false) (hds : pathLe dst src = false)
    (h : (copytree denied fuel root src dst).res = .ok fs') :
    ∀ rel bs, fs'.lookup (src ++ rel) = some (.file bs) →
      fs'.lookup (dst ++ rel) = some (.file bs) := by
  intro rel bs hrel
  have hroot : root.lookup (src ++ rel) = some (.file bs) :=
    copytree_file_rev fuel root src dst fs' h _ bs hrel
      (pathLe_not_into rel hds hsd)
  exact copytree_copies fuel root src dst fs' hsd hds h rel bs hroot

theorem copytree_structure_preserving_witness :
    (copytree [] 5 sampleTree ["s"] ["t", "u"]).res = .ok sampleTreeCopied ∧
    sampleTreeCopied.lookup (["t", "u"] ++ ["d", "g"]) = some (.file "y") := by
  constructor
  · rfl
  · refine copytree_structure_preserving ?_ ?_
      (show (copytree [] 5 sampleTree ["s"] ["t", "u"]).res =
        .ok sampleTreeCopied from rfl) ["d", "g"] "y" rfl <;> rfl

/-- C8: during a recursive copy, destination parent directories are created
before any file is placed inside them: given the caller's guarantee that
the top-level destination's parent exists, every missing-path (ENOENT)
exception the copy raises names a path inside the source subtree (a missing
source), never a destination path with a missing ancestor directory — so at
no point is a file written into a directory that has not been created. -/
theorem copytree_parents_before_files {denied : List Path} {fuel : Nat}
    {root : Node} {src dst : Path} {p : Path}
    (hpar : pathExists root dst.dropLast = true)
    (h : (copytree denied fuel root src dst).res = .error (.ENOENT p)) :
    pathLe src p = true :=
  copytree_enoent_src fuel root src dst p hpar h

theorem copytree_parents_before_files_witness :
    (copytree [] 3 (.dir [("t", .dir [])]) ["missing"] ["t", "u"]).res =
      .error (.ENOENT ["missing"]) ∧
    pathLe ["missing"] ["missing"] = true :=
  ⟨rfl, copytree_parents_before_files
    (show pathExists (Node.dir [("t", .dir [])]) (["t", "u"].dropLast) = true
      from rfl)
    (show (copytree [] 3 (.dir [("t", .dir [])]) ["missing"] ["t", "u"]).res =
      .error (.ENOENT ["missing"]) from rfl)⟩

theorem shutilCopy_src_missing {root : Node} {src : Path} (dst : Path)
    (h : root.lookup src = none) :
    shutilCopy root src dst = .error (.ENOENT src) := by
  have hex : pathExists root src = false := pathExists_false_iff.mpr h
  unfold shutilCopy copyfile
  rw [if_neg (by rw [hex, Bool.and_false]; exact Bool.noConfusion)]
  rw [h]

/-- C5: on mac, with a build profile that places the executable, when
neither the `RetroFE.app` bundle nor the bare `retrofe` executable exists
in the Release directory, the placement step prints the error line and
returns normally (the condition is recovered, not raised) with the tree
unchanged; a whole fresh `--build core`/`--build engine` run therefore
exits with status zero, printing only the error line, with the output
directory created but empty of executable artifacts. -/
theorem mac_missing_artifacts_nonfatal :
    (∀ (denied : List Path) (base : Path) (build : String) (root : Node),
      buildWantsExe build = true →
      pathExists root
        (base ++ ["RetroFE", "Build", "Release", "RetroFE.app"]) = false →
      pathExists root
        (base ++ ["RetroFE", "Build", "Release", "retrofe"]) = false →
      placeExe denied base .mac build root =
        ⟨["Error: Neither RetroFE.app nor retrofe binary found in Release folder."],
         .ok root⟩) ∧
    (∀ (base : Path) (build : String) (root : Node)
      (cs : List (String × Node)) (clean : Bool) (fuel : Nat),
      build = "core" ∨ build = "engine" →
      root.lookup base = some (.dir cs) →
      root.lookup (base ++ ["Artifacts"]) = none →
      root.lookup (base ++ ["RetroFE", "Build", "Release", "RetroFE.app"])
        = none →
      root.lookup (base ++ ["RetroFE", "Build", "Release", "retrofe"])
        = none →
      ∃ fs', runPackage [] base .mac build clean fuel root =
        ⟨["Error: Neither RetroFE.app nor retrofe binary found in Release folder."],
         .ok fs'⟩ ∧ fs'.lookup (outputPath base .mac) = some (.dir [])) := by
  have hplace : ∀ (denied : List Path) (base : Path) (build : String)
      (root : Node), buildWantsExe build = true →
      pathExists root
        (base ++ ["RetroFE", "Build", "Release", "RetroFE.app"]) = false →
      pathExists root
        (base ++ ["RetroFE", "Build", "Release", "retrofe"]) = false →
      placeExe denied base .mac build root =
        ⟨["Error: Neither RetroFE.app nor retrofe binary found in Release folder."],
         .ok root⟩ := by
    intro denied base build root hw happ hexe
    simp only [placeExe]
    rw [if_pos hw]
    have happ2 : pathExists root
        ((base ++ ["RetroFE", "Build", "Release"]) ++ ["RetroFE.app"]) = false := by
      rw [List.append_assoc]
      exact happ
    have hexe2 : pathExists root
        ((base ++ ["RetroFE", "Build", "Release"]) ++ ["retrofe"]) = false := by
      rw [List.append_assoc]
      exact hexe
    rw [if_neg (by rw [happ2]; exact Bool.noConfusion)]
    rw [if_neg (by rw [hexe2]; exact Bool.noConfusion)]
  refine ⟨hplace, ?_⟩
  intro base build root cs clean fuel hb hbase hart happ hexe
  have hb_none : build ≠ "none" := by rcases hb with rfl | rfl <;> decide
  have hb_full : build ≠ "full" := by rcases hb with rfl | rfl <;> decide
  have hb_layout : build ≠ "layout" := by rcases hb with rfl | rfl <;> decide
  have hw : buildWantsExe build = true := by rcases hb with rfl | rfl <;> decide
  rw [runPackage_fresh_skip clean fuel hbase hart hb_none hb_full hb_layout]
  set fs1 := root.update (base ++ ["Artifacts"])
    (nestedDirs [osStr .mac, "RetroFE"]) with hfs1
  have happ1 : pathExists fs1
      (base ++ ["RetroFE", "Build", "Release", "RetroFE.app"]) = false := by
    rw [pathExists_false_iff, hfs1]
    rw [fresh_lookup_other (by decide) _ _]
    exact happ
  have hexe1 : pathExists fs1
      (base ++ ["RetroFE", "Build", "Release", "retrofe"]) = false := by
    rw [pathExists_false_iff, hfs1]
    rw [fresh_lookup_other (by decide) _ _]
    exact hexe
  refine ⟨fs1, hplace [] base build fs1 hw happ1 hexe1, ?_⟩
  rw [hfs1]
  exact fresh_lookup_out hbase

theorem mac_missing_artifacts_nonfatal_witness :
    placeExe [] [] .mac "full" (.dir []) =
      ⟨["Error: Neither RetroFE.app nor retrofe binary found in Release folder."],
       .ok (.dir [])⟩ ∧
    ∃ fs', runPackage [] [] .mac "core" false 1 (.dir []) =
      ⟨["Error: Neither RetroFE.app nor retrofe binary found in Release folder."],
       .ok fs'⟩ ∧ fs'.lookup (outputPath [] .mac) = some (.dir []) :=
  ⟨mac_missing_artifacts_nonfatal.1 [] [] "full" (.dir []) rfl rfl rfl,
   mac_missing_artifacts_nonfatal.2 [] "core" (.dir []) [] false 1
     (Or.inl rfl) rfl rfl rfl rfl⟩

/-- C9: on windows and linux with a build profile that places the
executable, a missing fixed-path source executable makes the placement
step raise: on windows the step ends in an uncaught exception (the ENOENT
from the copy, or the failure of the `output/retrofe` creation); on linux
it raises ENOENT for the missing source; and the exception propagates out
of the whole run (shown for a fresh `--os linux --build core` run), so the
process dies with a non-zero status. -/
theorem missing_exe_fatal :
    (∀ (denied : List Path) (base : Path) (build : String) (root : Node),
      buildWantsExe build = true →
      root.lookup (base ++ ["RetroFE", "Build", "Release", "retrofe.exe"])
        = none →
      ∃ e, (placeExe denied base .windows build root).res = .error e) ∧
    (∀ (denied : List Path) (base : Path) (build : String) (root : Node),
      buildWantsExe build = true →
      root.lookup (base ++ ["RetroFE", "Build", "retrofe"]) = none →
      (placeExe denied base .linux build root).res =
        .error (.ENOENT (base ++ ["RetroFE", "Build", "retrofe"]))) ∧
    (∀ (base : Path) (root : Node) (cs : List (String × Node))
      (clean : Bool) (fuel : Nat),
      root.lookup base = some (.dir cs) →
      root.lookup (base ++ ["Artifacts"]) = none →
      root.lookup (base ++ ["RetroFE", "Build", "retrofe"]) = none →
      (runPackage [] base .linux "core" clean fuel root).res =
        .error (.ENOENT (base ++ ["RetroFE", "Build", "retrofe"]))) := by
  have hlinux : ∀ (denied : List Path) (base : Path) (build : String)
      (root : Node), buildWantsExe build = true →
      root.lookup (base ++ ["RetroFE", "Build", "retrofe"]) = none →
      (placeExe denied base .linux build root).res =
        .error (.ENOENT (base ++ ["RetroFE", "Build", "retrofe"])) := by
    intro denied base build root hw hsrc
    simp only [placeExe]
    rw [if_pos hw]
    exact congrArg Except.error
      (congrArg Errno.ENOENT rfl) ▸ congrArg Out.res rfl ▸
        (by rw [shutilCopy_src_missing _ hsrc])
  refine ⟨?_, hlinux, ?_⟩
  · intro denied base build root hw hsrc
    simp only [placeExe]
    rw [if_pos hw]
    by_cases hex : pathExists root (outputPath base .windows ++ ["retrofe"]) = true
    · rw [if_neg (by rw [hex]; simp)]
      rw [Out.nil_ok_bind]
      exact ⟨.ENOENT (base ++ ["RetroFE", "Build", "Release", "retrofe.exe"]),
        by rw [shutilCopy_src_missing _ hsrc]⟩
    · rw [if_pos (by rw [pathExists_false_iff.mpr
        (pathExists_false_iff.mp (Bool.eq_false_iff.mpr hex))]; rfl)]
      cases hmd : makedirs denied root (outputPath base .windows ++ ["retrofe"]) with
      | error e =>
        refine ⟨e, ?_⟩
        unfold Out.bind
        simp only [hmd]
      | ok r1 =>
        have hsrc1 : r1.lookup
            (base ++ ["RetroFE", "Build", "Release", "retrofe.exe"]) = none := by
          refine makedirs_none_pres hmd hsrc ?_
          have hform : outputPath base .windows ++ ["retrofe"] =
              base ++ "Artifacts" :: ["windows", "RetroFE", "retrofe"] := by
            rw [outputPath]
            rw [List.append_assoc]
            rfl
          rw [hform]
          exact pathLe_append_cons_ne (by decide) _ _
        refine ⟨.ENOENT (base ++ ["RetroFE", "Build", "Release", "retrofe.exe"]), ?_⟩
        unfold Out.bind
        simp only [hmd]
        rw [shutilCopy_src_missing _ hsrc1]
  · intro base root cs clean fuel hbase hart hsrc
    rw [runPackage_fresh_skip clean fuel hbase hart (by decide) (by decide)
      (by decide)]
    have hsrc1 : (root.update (base ++ ["Artifacts"])
        (nestedDirs [osStr .linux, "RetroFE"])).lookup
        (base ++ ["RetroFE", "Build", "retrofe"]) = none := by
      rw [fresh_lookup_other (by decide) _ _]
      exact hsrc
    exact hlinux [] base "core" _ (by decide) hsrc1

theorem missing_exe_fatal_witness :
    (∃ e, (placeExe [] [] .windows "engine" (.dir [])).res = .error e) ∧
    (placeExe [] [] .linux "full" (.dir [])).res =
      .error (.ENOENT ["RetroFE", "Build", "retrofe"]) ∧
    (runPackage [] [] .linux "core" false 1 (.dir [])).res =
      .error (.ENOENT ["RetroFE", "Build", "retrofe"]) :=
  ⟨missing_exe_fatal.1 [] [] "engine" (.dir []) rfl rfl,
   missing_exe_fatal.2.1 [] [] "full" (.dir []) rfl rfl,
   missing_exe_fatal.2.2 [] (.dir []) [] false 1 rfl rfl rfl⟩

theorem Out.bind_tail_id {o : Out} {f : Node → Out}
    (hf : ∀ n, o.res = .ok n → f n = ⟨[], .ok n⟩) : o.bind f = o := by
  obtain ⟨tr, res⟩ := o
  unfold Out.bind
  simp only
  cases res with
  | ok n =>
    simp only
    rw [hf n rfl]
    simp
  | error e => rfl

theorem placeExe_no_exe {denied : List Path} {base : Path} {o : OSChoice}
    {build : String} {root : Node} (h : buildWantsExe build = false) :
    placeExe denied base o build root = ⟨[], .ok root⟩ := by
  cases o <;> simp [placeExe, h]

theorem osAssetsPath_head (base : Path) (o : OSChoice) :
    ∃ rest, osAssetsPath base o = base ++ "Package" :: rest := by
  cases o <;> exact ⟨_, rfl⟩

theorem commonPath_cons (base : Path) :
    commonPath base = base ++ "Package" :: ["Environment", "Common"] := rfl

/-- The output path with "layouts" appended, in head-normal form below the
base. -/
theorem layouts_path_eq (base : Path) (o : OSChoice) :
    outputPath base o ++ ["layouts"] =
      (base ++ ["Artifacts"]) ++ [osStr o, "RetroFE", "layouts"] := by
  rw [outputPath_eq, List.append_assoc]
  rfl

theorem layouts_path_cons (base : Path) (o : OSChoice) :
    outputPath base o ++ ["layouts"] =
      base ++ "Artifacts" :: [osStr o, "RetroFE", "layouts"] := by
  rw [layouts_path_eq, List.append_assoc]
  rfl

/-- C7: the layout profile never crashes when the optional `layouts`
source subdirectories are absent — the copies are simply skipped.  With
both absent, a fresh run succeeds printing nothing and the output tree
holds exactly an empty `layouts` directory.  With the common `layouts`
absent, the branch reduces to just the optional OS-side copy; with the
OS-side `layouts` absent, the branch reduces to just the optional
common-side copy. -/
theorem layout_missing_sources_skipped :
    (∀ (base : Path) (o : OSChoice) (root : Node)
      (cs : List (String × Node)) (clean : Bool) (fuel : Nat),
      root.lookup base = some (.dir cs) →
      root.lookup (base ++ ["Artifacts"]) = none →
      root.lookup (commonPath base ++ ["layouts"]) = none →
      root.lookup (osAssetsPath base o ++ ["layouts"]) = none →
      ∃ fs', runPackage [] base o "layout" clean fuel root = ⟨[], .ok fs'⟩ ∧
        fs'.lookup (outputPath base o) =
          some (.dir [("layouts", .dir [])])) ∧
    (∀ (denied : List Path) (base : Path) (o : OSChoice) (fuel : Nat)
      (root : Node),
      pathExists root (outputPath base o ++ ["layouts"]) = true →
      pathExists root (commonPath base ++ ["layouts"]) = false →
      layoutBranch denied base o fuel root =
        (if pathExists root (osAssetsPath base o ++ ["layouts"]) then
          copytree denied fuel root (osAssetsPath base o ++ ["layouts"])
            (outputPath base o ++ ["layouts"])
        else ⟨[], .ok root⟩)) ∧
    (∀ (denied : List Path) (base : Path) (o : OSChoice) (fuel : Nat)
      (root : Node),
      pathExists root (outputPath base o ++ ["layouts"]) = true →
      root.lookup (osAssetsPath base o ++ ["layouts"]) = none →
      layoutBranch denied base o fuel root =
        (if pathExists root (commonPath base ++ ["layouts"]) then
          copytree denied fuel root (commonPath base ++ ["layouts"])
            (outputPath base o ++ ["layouts"])
        else ⟨[], .ok root⟩)) := by
  refine ⟨?_, ?_, ?_⟩
  · intro base o root cs clean fuel hbase hart hcl hol
    unfold runPackage
    simp only
    rw [cleanStep_skip ⟨o, "layout", clean⟩ (output_absent hart)]
    rw [ensureOutput_fresh hbase hart (by decide)]
    rw [Out.nil_ok_bind]
    rw [if_neg (by decide), if_pos trivial]
    set N := nestedDirs [osStr o, "RetroFE"] with hN
    set fs1 := root.update (base ++ ["Artifacts"]) N with hfs1
    have hldest : fs1.lookup (outputPath base o ++ ["layouts"]) = none := by
      rw [layouts_path_eq, hfs1, hN]
      rw [lookup_update_concat hbase "Artifacts" _ _]
      simp [nestedDirs, dirLookup, findChild]
    have hout1 : fs1.lookup (outputPath base o) = some (.dir []) := by
      rw [hfs1, hN]
      exact fresh_lookup_out hbase
    have hmd : makedirs [] fs1 (outputPath base o ++ ["layouts"]) =
        .ok (fs1.update (outputPath base o ++ ["layouts"]) (nestedDirs [])) := by
      have := makedirs_fresh_chain (c := "layouts") hout1
        (pathExists_false_iff.mpr hldest) []
      exact this
    set fs2 := fs1.update (outputPath base o ++ ["layouts"]) (nestedDirs [])
      with hfs2
    have hcl2 : pathExists fs2 (commonPath base ++ ["layouts"]) = false := by
      rw [pathExists_false_iff, hfs2, hfs1]
      have hform : commonPath base ++ ["layouts"] =
          base ++ "Package" :: ["Environment", "Common", "layouts"] := by
        rw [commonPath, List.append_assoc]
        rfl
      rw [hform, layouts_path_cons]
      rw [lookup_update_other (by decide) _]
      have : base ++ ["Artifacts"] = base ++ "Artifacts" :: [] := rfl
      rw [this, lookup_update_other (by decide) _]
      rw [← hform]
      exact hcl
    have hol2 : pathExists fs2 (osAssetsPath base o ++ ["layouts"]) = false := by
      rw [pathExists_false_iff, hfs2, hfs1]
      obtain ⟨rest, hrest⟩ := osAssetsPath_head base o
      have hform : osAssetsPath base o ++ ["layouts"] =
          base ++ "Package" :: (rest ++ ["layouts"]) := by
        rw [hrest, List.append_assoc]
        rfl
      rw [hform, layouts_path_cons]
      rw [lookup_update_other (by decide) _]
      have : base ++ ["Artifacts"] = base ++ "Artifacts" :: [] := rfl
      rw [this, lookup_update_other (by decide) _]
      rw [← hform]
      exact hol
    have hbranch : layoutBranch [] base o fuel fs1 = ⟨[], .ok fs2⟩ := by
      unfold layoutBranch
      simp only
      rw [pathExists_false_iff.mpr hldest]
      simp only [Bool.not_false, if_true]
      rw [hmd]
      rw [Out.nil_ok_bind]
      rw [hcl2]
      simp only [Bool.false_eq_true, if_false]
      rw [Out.nil_ok_bind]
      rw [hol2]
      simp only [Bool.false_eq_true, if_false]
    rw [hbranch, Out.nil_ok_bind, placeExe_no_exe (by decide)]
    refine ⟨fs2, rfl, ?_⟩
    have hcollapse : fs2 = root.update (base ++ ["Artifacts"])
        (N.update [osStr o, "RetroFE", "layouts"] (.dir [])) := by
      rw [hfs2, hfs1, layouts_path_eq]
      exact update_update_concat hbase "Artifacts" N (.dir [])
        [osStr o, "RetroFE", "layouts"]
    rw [hcollapse, outputPath_eq]
    rw [lookup_update_concat hbase "Artifacts" _ _]
    rw [hN]
    simp [nestedDirs, Node.update, childD, findChild, setChild, dirLookup,
      Node.lookup]
  · intro denied base o fuel root hld hcl
    unfold layoutBranch
    simp only
    rw [hld]
    simp only [Bool.not_true, Bool.false_eq_true, if_false]
    rw [Out.nil_ok_bind]
    rw [hcl]
    simp only [Bool.false_eq_true, if_false]
    rw [Out.nil_ok_bind]
  · intro denied base o fuel root hld hol
    unfold layoutBranch
    simp only
    rw [hld]
    simp only [Bool.not_true, Bool.false_eq_true, if_false]
    rw [Out.nil_ok_bind]
    by_cases hcl : pathExists root (commonPath base ++ ["layouts"]) = true
    · rw [if_pos hcl]
      refine Out.bind_tail_id ?_
      intro n hn
      have hdisj1 : pathLe (outputPath base o ++ ["layouts"])
          (osAssetsPath base o ++ ["layouts"]) = false := by
        obtain ⟨rest, hrest⟩ := osAssetsPath_head base o
        have hform : osAssetsPath base o ++ ["layouts"] =
            base ++ "Package" :: (rest ++ ["layouts"]) := by
          rw [hrest, List.append_assoc]
          rfl
        rw [hform, layouts_path_cons]
        exact pathLe_append_cons_ne (by decide) _ _
      have hdisj2 : pathLe (osAssetsPath base o ++ ["layouts"])
          (outputPath base o ++ ["layouts"]) = false := by
        obtain ⟨rest, hrest⟩ := osAssetsPath_head base o
        have hform : osAssetsPath base o ++ ["layouts"] =
            base ++ "Package" :: (rest ++ ["layouts"]) := by
          rw [hrest, List.append_assoc]
          rfl
        rw [hform, layouts_path_cons]
        exact pathLe_append_cons_ne (by decide) _ _
      have hnone : n.lookup (osAssetsPath base o ++ ["layouts"]) = none :=
        copytree_none_pres fuel root _ _ n hn _ hol hdisj1 hdisj2
      rw [pathExists_false_iff.mpr hnone]
      simp
    · rw [if_neg hcl]
      rw [Out.nil_ok_bind]
      rw [pathExists_false_iff.mpr hol]
      simp

theorem layout_missing_sources_skipped_witness :
    (∃ fs', runPackage [] [] .windows "layout" false 1
        (.dir [("Package", .dir [("Environment",
          .dir [("Common", .dir []), ("Windows", .dir [])])])]) =
      ⟨[], .ok fs'⟩ ∧
      fs'.lookup (outputPath [] .windows) =
        some (.dir [("layouts", .dir [])])) ∧
    layoutBranch [] [] .linux 1
        (.dir [("Artifacts", .dir [("linux",
          .dir [("RetroFE", .dir [("layouts", .dir [])])])])]) =
      ⟨[], .ok (.dir [("Artifacts", .dir [("linux",
        .dir [("RetroFE", .dir [("layouts", .dir [])])])])])⟩ :=
  ⟨layout_missing_sources_skipped.1 [] .windows
    (.dir [("Package", .dir [("Environment",
      .dir [("Common", .dir []), ("Windows", .dir [])])])]) _ false 1
    rfl rfl rfl rfl,
   by
    have h := layout_missing_sources_skipped.2.1 [] [] .linux 1
      (.dir [("Artifacts", .dir [("linux",
        .dir [("RetroFE", .dir [("layouts", .dir [])])])])]) rfl rfl
    rw [h]
    rfl⟩

/-- C10: the `--build` argument is not validated against the enumerated
set: the parser accepts any string for it (only `--os` carries a choices
list), and a fresh run with a value outside
{full, core, engine, layout, none} still creates the output directory
(the value differs from "none") while copying no assets and no executable
and printing nothing — the whole run is exactly the output-directory
creation. -/
theorem build_arg_unvalidated :
    (∀ (b : String) (clean : Bool),
      parseArgs "windows" b clean = some ⟨.windows, b, clean⟩) ∧
    (∀ (b : String) (base : Path) (o : OSChoice) (root : Node)
      (cs : List (String × Node)) (clean : Bool) (fuel : Nat),
      b ∉ ["full", "core", "engine", "layout", "none"] →
      root.lookup base = some (.dir cs) →
      root.lookup (base ++ ["Artifacts"]) = none →
      runPackage [] base o b clean fuel root =
        ⟨[], .ok (root.update (base ++ ["Artifacts"])
          (nestedDirs [osStr o, "RetroFE"]))⟩ ∧
      (root.update (base ++ ["Artifacts"])
        (nestedDirs [osStr o, "RetroFE"])).lookup (outputPath base o) =
          some (.dir [])) := by
  refine ⟨fun b clean => by simp [parseArgs], ?_⟩
  intro b base o root cs clean fuel hb hbase hart
  simp only [List.mem_cons, List.mem_singleton, not_or] at hb
  obtain ⟨hbf, hbc, hbe, hbl, hbn, -⟩ := hb
  rw [runPackage_fresh_skip clean fuel hbase hart hbn hbf hbl]
  rw [placeExe_no_exe (by simp [buildWantsExe, hbf, hbc, hbe])]
  exact ⟨rfl, fresh_lookup_out hbase⟩

theorem build_arg_unvalidated_witness :
    parseArgs "windows" "bogus" false = some ⟨.windows, "bogus", false⟩ ∧
    runPackage [] [] .linux "bogus" false 1 (.dir []) =
      ⟨[], .ok (Node.update (.dir []) ["Artifacts"]
        (nestedDirs [osStr .linux, "RetroFE"]))⟩ ∧
    (Node.update (.dir []) ["Artifacts"]
      (nestedDirs [osStr .linux, "RetroFE"])).lookup (outputPath [] .linux) =
        some (.dir []) :=
  ⟨build_arg_unvalidated.1 "bogus" false,
   (build_arg_unvalidated.2 "bogus" [] .linux (.dir []) [] false 1
     (by decide) rfl rfl).1,
   (build_arg_unvalidated.2 "bogus" [] .linux (.dir []) [] false 1
     (by decide) rfl rfl).2⟩

/-- C4: in the full profile's collection scaffolding, every immediate
subdirectory of `output/collections` whose name does not start with "_"
gets the five fixed subdirectories (`roms`, `medium_artwork`,
`medium_artwork/logo`, `medium_artwork/video`, `system_artwork`) under it:
after a successful scaffolding step each of the five paths exists, and is
a directory provided it was not already occupied by a regular file; a
collection whose name starts with "_" is never scaffolded — any of the
five paths absent under it before the step is still absent after it. -/
theorem collection_scaffolding {denied : List Path} {out : Path}
    {root root' : Node} {cs : List (String × Node)}
    (hcoll : root.lookup (out ++ ["collections"]) = some (.dir cs))
    (h : (scaffoldCollections denied out root).res = .ok root') :
    (∀ d, d ∈ cs.map Prod.fst →
      isdir root ((out ++ ["collections"]) ++ [d]) = true →
      startsWithUnderscore d = false →
      ∀ sub, sub ∈ dirsToCreate →
        pathExists root' (out ++ ["collections", d] ++ sub) = true ∧
        ((root.lookup (out ++ ["collections", d] ++ sub) = none ∨
          isdir root (out ++ ["collections", d] ++ sub) = true) →
          isdir root' (out ++ ["collections", d] ++ sub) = true)) ∧
    (∀ d, startsWithUnderscore d = true → ∀ sub, sub ∈ dirsToCreate →
      root.lookup (out ++ ["collections", d] ++ sub) = none →
      root'.lookup (out ++ ["collections", d] ++ sub) = none) := by
  unfold scaffoldCollections at h
  simp only at h
  rw [hcoll] at h
  simp only at h
  constructor
  · intro d hd hdir hstart sub hsub
    have hmem : d ∈ (cs.map Prod.fst).filter
        (fun d => isdir root ((out ++ ["collections"]) ++ [d])) :=
      List.mem_filter.mpr ⟨hd, hdir⟩
    have hex : pathExists root' (out ++ ["collections", d] ++ sub) = true :=
      scaffoldLoop_qualifying _ root root' h d hmem hstart sub hsub
    refine ⟨hex, ?_⟩
    intro hnofile
    obtain ⟨v, hv⟩ := pathExists_true_iff.mp hex
    cases v with
    | file bs =>
      have hback := scaffoldLoop_file_rev h hv
      rcases hnofile with hnone | hdir2
      · rw [hback] at hnone
        exact Option.noConfusion hnone
      · unfold isdir at hdir2
        rw [hback] at hdir2
        exact Bool.noConfusion hdir2
    | dir cs2 =>
      unfold isdir
      rw [hv]
  · intro d hstart sub hsub hnone
    refine scaffoldLoop_none_pres h hnone ?_
    intro d2 _ hd2start sub2 _
    have hdd2 : d ≠ d2 := by
      intro hh
      rw [hh, hd2start] at hstart
      exact Bool.noConfusion hstart
    have hform1 : out ++ ["collections", d] ++ sub =
        (out ++ ["collections"]) ++ d :: sub := by
      rw [List.append_assoc, List.append_assoc]
      rfl
    have hform2 : (out ++ ["collections", d2]) ++ sub2 =
        (out ++ ["collections"]) ++ d2 :: sub2 := by
      rw [List.append_assoc, List.append_assoc]
      rfl
    rw [hform1, hform2]
    exact pathLe_append_cons_ne hdd2 _ _

theorem collection_scaffolding_witness :
    (scaffoldCollections [] [] collectionsBefore).res = .ok collectionsAfter ∧
    isdir collectionsAfter
      ([] ++ ["collections", "mario"] ++ ["medium_artwork", "logo"]) = true ∧
    collectionsAfter.lookup
      ([] ++ ["collections", "_hidden"] ++ ["roms"]) = none := by
  have h := collection_scaffolding
    (show collectionsBefore.lookup ([] ++ ["collections"]) =
      some (.dir [("mario", .dir []), ("_hidden", .dir []),
        ("notes.txt", .file "n")]) from rfl)
    (show (scaffoldCollections [] [] collectionsBefore).res =
      .ok collectionsAfter from rfl)
  refine ⟨rfl, ?_, ?_⟩
  · exact (h.1 "mario" (by decide) rfl rfl ["medium_artwork", "logo"]
      (by decide)).2 (Or.inl rfl)
  · exact h.2 "_hidden" rfl ["roms"] (by decide) rfl

end Package
